import Mathlib

/-!
Verification of the CONL parser core: a shallow embedding of the token
model, the tokenizer and the structural parser, together with proofs of
the specified properties.

Strings from the Rust source (`&str`) are modelled as `List Char`; raw
input bytes (`&[u8]`) as `List Nat`.  Fallible operations return
`Except SyntaxError` or `Option`.
-/

namespace Conl

/-- Byte-level whitespace test (space or tab), mirroring `is_whitespace`. -/
def isWsB (c : Nat) : Bool := c == 32 || c == 9

/-- Byte-level newline test (CR or LF), mirroring `is_newline`. -/
def isNlB (c : Nat) : Bool := c == 13 || c == 10

/-- Char-level whitespace test, mirroring `is_whitespace_char`. -/
def isWsC (c : Char) : Bool := c == ' ' || c == '\t'

/-- Char-level newline test, mirroring `is_newline_char`. -/
def isNlC (c : Char) : Bool := c == '\r' || c == '\n'

/-- Size of the newline at the head of a byte slice, mirroring `newline_size`:
`\r\n` counts as 2 bytes, otherwise 1. -/
def newlineSize (s : List Nat) : Nat :=
  match s with
  | 13 :: 10 :: _ => 2
  | _ => 1

/-- Drop matching characters from the end of a list (the right half of
Rust `trim_matches`). -/
def trimEnd (p : Char → Bool) : List Char → List Char
  | [] => []
  | c :: cs =>
    match trimEnd p cs with
    | [] => if p c then [] else [c]
    | d :: ds => c :: d :: ds

/-- Rust `str::trim_matches(p)`: strip matching characters from both ends. -/
def trimMatches (p : Char → Bool) (s : List Char) : List Char :=
  trimEnd p (s.dropWhile p)

/-- Continuation-byte test for UTF-8 decoding. -/
def isCont (b : Nat) : Bool := 128 ≤ b && b ≤ 191

/-- Lead/continuation test for a two-byte UTF-8 sequence. -/
def twoByteB (b b2 : Nat) : Bool := (194 ≤ b && b ≤ 223) && isCont b2

/-- Codepoint of a two-byte UTF-8 sequence. -/
def char2 (b b2 : Nat) : Char := Char.ofNat ((b - 192) * 64 + (b2 - 128))

/-- Lead/continuation test for a three-byte UTF-8 sequence, excluding
overlong encodings and surrogates. -/
def threeByteB (b b2 b3 : Nat) : Bool :=
  ((b == 224 && (160 ≤ b2 && b2 ≤ 191)) ||
   (((225 ≤ b && b ≤ 236) || (238 ≤ b && b ≤ 239)) && isCont b2) ||
   (b == 237 && (128 ≤ b2 && b2 ≤ 159))) && isCont b3

/-- Codepoint of a three-byte UTF-8 sequence. -/
def char3 (b b2 b3 : Nat) : Char :=
  Char.ofNat (((b - 224) * 64 + (b2 - 128)) * 64 + (b3 - 128))

/-- Lead/continuation test for a four-byte UTF-8 sequence, excluding
overlong encodings and codepoints above U+10FFFF. -/
def fourByteB (b b2 b3 b4 : Nat) : Bool :=
  ((b == 240 && (144 ≤ b2 && b2 ≤ 191)) ||
   ((241 ≤ b && b ≤ 243) && isCont b2) ||
   (b == 244 && (128 ≤ b2 && b2 ≤ 143))) && (isCont b3 && isCont b4)

/-- Codepoint of a four-byte UTF-8 sequence. -/
def char4 (b b2 b3 b4 : Nat) : Char :=
  Char.ofNat ((((b - 240) * 64 + (b2 - 128)) * 64 + (b3 - 128)) * 64 + (b4 - 128))

/-- Strict UTF-8 decoding of a byte list, mirroring `std::str::from_utf8`:
rejects overlong encodings, surrogates and codepoints above U+10FFFF. -/
def utf8Decode : List Nat → Option (List Char)
  | [] => some []
  | b :: rest =>
    if b < 128 then (utf8Decode rest).map (fun cs => Char.ofNat b :: cs)
    else
      match rest with
      | [] => none
      | b2 :: r1 =>
        if twoByteB b b2 then (utf8Decode r1).map (fun cs => char2 b b2 :: cs)
        else
          match r1 with
          | [] => none
          | b3 :: r2 =>
            if threeByteB b b2 b3 then (utf8Decode r2).map (fun cs => char3 b b2 b3 :: cs)
            else
              match r2 with
              | [] => none
              | b4 :: r3 =>
                if fourByteB b b2 b3 b4 then
                  (utf8Decode r3).map (fun cs => char4 b b2 b3 b4 :: cs)
                else none

/-- SyntaxError carries a line number and a message, mirroring the Rust
`SyntaxError` struct. -/
structure SyntaxError where
  lno : Nat
  msg : String
deriving DecidableEq, Repr

/-- Token is the CONL token type, mirroring the Rust `Token` enum: each
variant carries its 1-based line number; lexeme fields are decoded strings. -/
inductive Token where
  | newline (lno : Nat)
  | comment (lno : Nat) (text : List Char)
  | indent (lno : Nat)
  | outdent (lno : Nat)
  | listItem (lno : Nat)
  | mapKey (lno : Nat) (raw : List Char)
  | value (lno : Nat) (raw : List Char)
  | multilineHint (lno : Nat) (tag : List Char)
  | multilineValue (lno : Nat) (ind : List Char) (raw : List Char)
  | noValue (lno : Nat)
deriving DecidableEq, Repr

/-- Cow models Rust `Cow<'_, str>`: the result of `unescape`, distinguishing
the borrowing fast path from an owned decoded string. -/
inductive Cow where
  | borrowed (s : List Char)
  | owned (s : List Char)
deriving DecidableEq, Repr

/-- Payload string of a `Cow`, ignoring ownership. -/
def Cow.str : Cow → List Char
  | .borrowed s => s
  | .owned s => s

/-- Value of a single hex digit, or `none`. -/
def hexDigit (c : Char) : Option Nat :=
  if '0' ≤ c ∧ c ≤ '9' then some (c.toNat - '0'.toNat)
  else if 'a' ≤ c ∧ c ≤ 'f' then some (c.toNat - 'a'.toNat + 10)
  else if 'A' ≤ c ∧ c ≤ 'F' then some (c.toNat - 'A'.toNat + 10)
  else none

/-- Accumulate hex digits left to right; `none` on a non-digit. -/
def parseHexAux : List Char → Nat → Option Nat
  | [], acc => some acc
  | c :: cs, acc =>
    match hexDigit c with
    | none => none
    | some d => parseHexAux cs (acc * 16 + d)

/-- Parse a non-empty run of hex digits to its value. -/
def parseHexDigits : List Char → Option Nat
  | [] => none
  | cs => parseHexAux cs 0

/-- Model of `u32::from_str_radix(s, 16)`: optional sign, at least one hex
digit, value below `2^32` (a `-` sign only parses when the digits are all
zero, matching checked subtraction from zero). -/
def fromStrRadix16 (cs : List Char) : Option Nat :=
  match cs with
  | '+' :: rest => (parseHexDigits rest).bind (fun n => if n < 4294967296 then some n else none)
  | '-' :: rest => (parseHexDigits rest).bind (fun n => if n = 0 then some 0 else none)
  | _ => (parseHexDigits cs).bind (fun n => if n < 4294967296 then some n else none)

/-- Unicode-scalar-value test, mirroring `TryFrom<u32> for char`. -/
def isScalar (n : Nat) : Bool := n < 55296 || (57344 ≤ n && n < 1114112)

/-- Model of the `{HEX}` escape conversion: `u32::from_str_radix`, the
`len() <= 8` filter, and `char::try_from`. -/
def hexToChar (found : List Char) : Option Char :=
  (fromStrRadix16 found).bind fun n =>
    if found.length ≤ 8 then
      if isScalar n then some (Char.ofNat n) else none
    else none

/-- Error message for a bad `\x7b...\x7d` escape. -/
def invalidBraceMsg (found : List Char) : String :=
  "invalid escape code: \\\x7b" ++ String.mk found ++ "\x7d"

/-- Mode of the escape-decoder loop: scanning plain characters, just after
a backslash, or inside a `\x7b...\x7d` escape collecting its characters in
reverse. -/
inductive EscMode where
  | normal
  | escaped
  | brace (digits : List Char)
deriving DecidableEq, Repr

/-- The quoted-string escape decoder of `Token::unescape` (its `'outer`
loop with the `escaped` flag and the inner `\x7b...\x7d` loop), as a state
machine over the characters after the opening quote; `acc` is the output
built in reverse. -/
def escLoop (lno : Nat) : List Char → EscMode → List Char → Except SyntaxError (List Char)
  | [], .normal, _ => .error ⟨lno, "unclosed quotes"⟩
  | [], .escaped, _ => .error ⟨lno, "invalid escape code: end of string"⟩
  | [], .brace _, _ => .error ⟨lno, "invalid escape code: end of string"⟩
  | c :: rest, .normal, acc =>
    if c = '\\' then escLoop lno rest .escaped acc
    else if c = '"' then
      if rest.isEmpty then .ok acc.reverse
      else .error ⟨lno, "extra characters after quotes"⟩
    else escLoop lno rest .normal (c :: acc)
  | c :: rest, .escaped, acc =>
    if c = '"' then escLoop lno rest .normal ('"' :: acc)
    else if c = '\\' then escLoop lno rest .normal ('\\' :: acc)
    else if c = 'n' then escLoop lno rest .normal ('\n' :: acc)
    else if c = 'r' then escLoop lno rest .normal ('\r' :: acc)
    else if c = 't' then escLoop lno rest .normal ('\t' :: acc)
    else if c = '{' then escLoop lno rest (.brace []) acc
    else .error ⟨lno, "invalid escape code: \\" ++ String.mk [c]⟩
  | c :: rest, .brace ds, acc =>
    if c = '}' then
      match hexToChar ds.reverse with
      | none => .error ⟨lno, invalidBraceMsg ds.reverse⟩
      | some ch => escLoop lno rest .normal (ch :: acc)
    else escLoop lno rest (.brace (c :: ds)) acc

/-- Rust `str::lines`: split at `\n` terminators, a `\r` directly before a
`\n` belongs to the terminator, and a final terminator produces no empty
last line. -/
def rustLines (s : List Char) : List (List Char) :=
  match s with
  | [] => []
  | '\n' :: rest => [] :: rustLines rest
  | c :: rest =>
    match rustLines rest with
    | [] => [[c]]
    | l :: ls =>
      if c = '\r' ∧ rest ≠ [] ∧ rest.head? = some '\n' then l :: ls
      else (c :: l) :: ls

/-- Rust `str::split('\r')`. -/
def splitCr (s : List Char) : List (List Char) :=
  match s with
  | [] => [[]]
  | '\r' :: rest => [] :: splitCr rest
  | c :: rest =>
    match splitCr rest with
    | [] => [[c]]
    | l :: ls => (c :: l) :: ls

/-- Rust `List.isPrefixOf`-style `strip_prefix`: remove `p` from the front
of `s` when possible. -/
def stripPfx : List Char → List Char → Option (List Char)
  | [], s => some s
  | _, [] => none
  | p :: ps, c :: cs => if p = c then stripPfx ps cs else none

/-- Per-line step of the multiline unescape: index 0 keeps an unmatched
line, later unmatched lines contribute only their break. -/
def mlLine (ind : List Char) (i : Nat) (line : List Char) : List Char :=
  let nl : List Char := if i > 0 then ['\n'] else []
  match stripPfx ind line with
  | some content => nl ++ content
  | none => if i = 0 then nl ++ line else nl

/-- Join the split lines of a multiline body with the indexed rule. -/
def mlJoin (ind : List Char) : Nat → List (List Char) → List Char
  | _, [] => []
  | i, l :: ls => mlLine ind i l ++ mlJoin ind (i + 1) ls

/-- Token.unescape mirrors Rust `Token::unescape`: quote removal and escape
decoding for keys and values, indent stripping for multiline values,
verbatim text for comments and hints, empty string otherwise. -/
def Token.unescape : Token → Except SyntaxError Cow
  | .mapKey lno val | .value lno val =>
    if val.head? ≠ some '"' then .ok (.borrowed val)
    else if val.head? = some '"' ∧ val.getLast? = some '"' ∧ val.length > 1 ∧
        ¬ ((val.drop 1).take (val.length - 2)).any (fun c => c = '"' ∨ c = '\\') then
      .ok (.borrowed ((val.drop 1).take (val.length - 2)))
    else
      (escLoop lno (val.drop 1) .normal []).map .owned
  | .multilineValue _ ind val =>
    if ¬ val.any (fun c => isNlC c) then .ok (.borrowed val)
    else .ok (.owned (mlJoin ind 0 ((rustLines val).flatMap splitCr)))
  | .comment _ text => .ok (.borrowed text)
  | .multilineHint _ hint => .ok (.borrowed hint)
  | _ => .ok (.borrowed [])

/-! ## Tokenizer -/

/-- Tokenizer state, mirroring the Rust `Tokenizer` struct.  The indent
stack is kept with the Rust `Vec`'s last element (the top) at the head. -/
structure Tokenizer where
  input : List Nat
  indentStack : List (List Nat)
  currentIndent : Option (List Nat)
  expectIndent : Bool
  expectValue : Bool
  expectMultiline : Bool
  lno : Nat
deriving DecidableEq, Repr

/-- Initial tokenizer state, mirroring `tokenize`. -/
def tokenize (input : List Nat) : Tokenizer :=
  ⟨input, [[]], none, true, false, false, 1⟩

instance {α β : Type} [DecidableEq α] [DecidableEq β] : DecidableEq (Except α β) :=
  fun x y =>
    match x, y with
    | .error a, .error b =>
      if h : a = b then .isTrue (by rw [h]) else .isFalse (by intro hc; cases hc; exact h rfl)
    | .error _, .ok _ => .isFalse (by intro hc; cases hc)
    | .ok _, .error _ => .isFalse (by intro hc; cases hc)
    | .ok a, .ok b =>
      if h : a = b then .isTrue (by rw [h]) else .isFalse (by intro hc; cases hc; exact h rfl)

/-- Result of one tokenizer step: an item (token or error) with the next
state, end of stream, or a Rust panic (`unwrap` failure). -/
inductive TStep where
  | yield (r : Except SyntaxError Token) (t : Tokenizer)
  | done (t : Tokenizer)
  | panic
deriving DecidableEq, Repr

/-- Leading space/tab run of a byte list (first half of `consume_whitespace`). -/
def takeWs (s : List Nat) : List Nat := s.takeWhile (fun c => isWsB c)

/-- Byte list after its leading space/tab run (second half of
`consume_whitespace`). -/
def dropWs (s : List Nat) : List Nat := s.dropWhile (fun c => isWsB c)

/-- Mirrors `Tokenizer::consume_comment`. -/
def consumeComment (t : Tokenizer) (rest : List Nat) :
    Except SyntaxError Token × Tokenizer :=
  let i := rest.findIdx (fun c => isNlB c)
  let t2 := { t with input := rest.drop i }
  match utf8Decode (rest.take i) with
  | none => (.error ⟨t.lno, "invalid UTF-8"⟩, t2)
  | some s => (.ok (.comment t.lno (trimMatches isWsC s)), t2)

/-- End-of-lexeme scan of `consume_value`: stop at a newline or an unquoted
`;`; a quote after position 0 that is not escaped closes the quote. -/
def valueEnd (cs : List Nat) (quoted wasEsc first : Bool) : Nat :=
  match cs with
  | [] => 0
  | c :: rest =>
    if isNlB c || (c == 59 && !quoted) then 0
    else
      1 + valueEnd rest (if !first && !wasEsc && c == 34 then false else quoted)
        (c == 92) false

/-- End-of-lexeme scan of `consume_key`: like `valueEnd` but also stops at
an unquoted `=`. -/
def keyEnd (cs : List Nat) (quoted wasEsc first : Bool) : Nat :=
  match cs with
  | [] => 0
  | c :: rest =>
    if isNlB c || (c == 59 && !quoted) || (c == 61 && !quoted) then 0
    else
      1 + keyEnd rest (if !first && !wasEsc && c == 34 then false else quoted)
        (c == 92) false

/-- Mirrors `Tokenizer::consume_multiline_hint`. -/
def consumeMultilineHint (t : Tokenizer) (rest : List Nat) :
    Except SyntaxError Token × Tokenizer :=
  let i := rest.findIdx (fun c => isNlB c || c == 59)
  let t2 := { t with input := rest.drop i }
  match utf8Decode (rest.take i) with
  | none => (.error ⟨t.lno, "invalid UTF-8"⟩, t2)
  | some s => (.ok (.multilineHint t.lno (trimMatches isWsC s)), { t2 with expectMultiline := true })

/-- Mirrors `Tokenizer::consume_value`. -/
def consumeValue (t : Tokenizer) (rest : List Nat) :
    Except SyntaxError Token × Tokenizer :=
  match rest with
  | 34 :: 34 :: 34 :: hint => consumeMultilineHint t hint
  | _ =>
    let e := valueEnd rest (rest.head? == some 34) false true
    let t2 := { t with input := rest.drop e }
    match utf8Decode (rest.take e) with
    | none => (.error ⟨t.lno, "invalid UTF-8"⟩, t2)
    | some s => (.ok (.value t.lno (trimMatches isWsC s)), t2)

/-- Mirrors `Tokenizer::consume_key`. -/
def consumeKey (t : Tokenizer) (rest : List Nat) :
    Except SyntaxError Token × Tokenizer :=
  let e := keyEnd rest (rest.head? == some 34) false true
  let after := rest.drop e
  let after2 := if after.head? == some 61 then after.tail else after
  let t2 := { t with expectValue := true, input := after2 }
  match utf8Decode (rest.take e) with
  | none => (.error ⟨t.lno, "invalid UTF-8"⟩, t2)
  | some s => (.ok (.mapKey t.lno (trimMatches isWsC s)), t2)

/-- Rust `slice::split_inclusive(is_newline)`: segments each keep their
terminating newline byte; a last segment without a newline is kept; the
empty slice has no segments. -/
def splitInclusiveNl : List Nat → List (List Nat)
  | [] => []
  | c :: cs =>
    if isNlB c then [c] :: splitInclusiveNl cs
    else
      match splitInclusiveNl cs with
      | [] => [[c]]
      | s :: ss => (c :: s) :: ss

/-- Scan of `consume_multiline`: take segments while they start with the
indent or are blank; returns consumed byte count and line-number increment
(a lone `\n` directly after a segment ending in `\r` is not counted). -/
def mlScan (ind : List Nat) : List (List Nat) → Bool → Nat × Nat
  | [], _ => (0, 0)
  | seg :: rest, wasCr =>
    if ind.isPrefixOf seg || seg.all (fun c => isWsB c || isNlB c) then
      let inc := if wasCr && seg == [10] then 0 else 1
      let p := mlScan ind rest (seg.getLast? == some 13)
      (seg.length + p.1, inc + p.2)
    else (0, 0)

/-- Mirrors `Tokenizer::consume_multiline`; panics when the indent bytes are
not valid UTF-8 (the Rust `unwrap`). -/
def consumeMultiline (t : Tokenizer) (ind : List Nat) : TStep :=
  let p := mlScan ind (splitInclusiveNl t.input) false
  let t2 := { t with input := t.input.drop p.1, lno := t.lno + p.2 }
  match utf8Decode (t.input.take p.1) with
  | none => .yield (.error ⟨t.lno, "invalid UTF-8"⟩) t2
  | some s =>
    match utf8Decode ind with
    | none => .panic
    | some indS =>
      .yield (.ok (.multilineValue t.lno indS (trimMatches (fun c => isNlC c || isWsC c) s))) t2

/-- Tail of `Tokenizer::next` once indentation has been dealt with: list
item, value or key. -/
def tokFinal (t : Tokenizer) (rest : List Nat) : TStep :=
  if rest.head? == some 61 && !t.expectValue then
    .yield (.ok (.listItem t.lno)) { t with expectValue := true, input := rest.tail }
  else if t.expectValue then
    let r := consumeValue { t with expectValue := false } rest
    .yield r.1 r.2
  else
    let r := consumeKey t rest
    .yield r.1 r.2

/-- Indentation comparison of `Tokenizer::next` (the `indent != current`
block): push and emit `Indent`, or pop, stash and emit `Outdent`. -/
def tokDispatch (t : Tokenizer) (current indent rest : List Nat) : TStep :=
  if indent ≠ current then
    if current.length < indent.length && current.isPrefixOf indent then
      .yield (.ok (.indent t.lno)) { t with indentStack := indent :: t.indentStack, input := rest }
    else
      .yield (.ok (.outdent t.lno))
        { t with indentStack := t.indentStack.tail, currentIndent := some indent,
                 expectIndent := true }
  else tokFinal t rest

/-- Body of `Tokenizer::next` after the leading indent and remainder have
been determined (`t` has any pending stashed indent already taken). -/
def tokBody (t : Tokenizer) (indent rest : List Nat) : TStep :=
  match rest with
  | [] =>
    if t.indentStack.length > 1 then
      .yield (.ok (.outdent t.lno)) { t with indentStack := t.indentStack.tail }
    else .done t
  | c :: _ =>
    if isNlB c then
      .yield (.ok (.newline t.lno))
        { t with input := rest.drop (newlineSize rest), lno := t.lno + 1,
                 expectIndent := true, expectValue := false }
    else if c == 59 && !(t.expectIndent && t.expectMultiline) then
      let r := consumeComment t rest.tail
      .yield r.1 r.2
    else if t.expectIndent then
      match t.indentStack with
      | [] => .panic
      | current :: _ =>
        let t1 := { t with expectIndent := false }
        if t.expectMultiline then
          let t2 := { t1 with expectMultiline := false }
          if current.length < indent.length && current.isPrefixOf indent then
            consumeMultiline t2 indent
          else tokDispatch t2 current indent rest
        else tokDispatch t1 current indent rest
    else tokFinal t rest

/-- One step of the tokenizer, mirroring `Iterator::next for Tokenizer`:
a stashed indent from an outdent replay is used (and cleared) instead of
consuming whitespace. -/
def tokenizerNext (t0 : Tokenizer) : TStep :=
  match t0.currentIndent with
  | some ci => tokBody { t0 with currentIndent := none } ci t0.input
  | none => tokBody t0 (takeWs t0.input) (dropWs t0.input)

/-! ## Structural parser -/

/-- Section kind, mirroring the Rust `SectionType` enum. -/
inductive SectionType where
  | list
  | map
deriving DecidableEq, Repr

/-- Parser state, mirroring the Rust `Parser` struct; the section-kind
stack keeps the Rust `Vec`'s last element at the head. -/
structure Parser where
  tokenizer : Tokenizer
  peek : Option (Option Token)
  multilineHint : Option Nat
  needsValue : Option Nat
  errored : Bool
  stack : List (Option SectionType)
deriving DecidableEq, Repr

/-- Initial parser state, mirroring `parse` / `Parser::new`. -/
def parse (input : List Nat) : Parser :=
  ⟨tokenize input, none, none, none, false, [none]⟩

/-- Result of one parser step: a token with the next state, a fatal error
with the next state, end of stream, or a Rust panic. -/
inductive PStep where
  | yield (tok : Token) (p : Parser)
  | error (e : SyntaxError) (p : Parser)
  | done (p : Parser)
  | panic
deriving DecidableEq, Repr

/-- Body of `Iterator::next for Parser` once the token (or end of stream)
has been fetched from the peek slot or the tokenizer. -/
def parserProcess (p : Parser) (next : Option Token) : PStep :=
  match next with
  | some (.newline l) => .yield (.newline l) p
  | some (.comment l s) => .yield (.comment l s) p
  | _ =>
    match p.multilineHint with
    | some lno =>
      let p1 := { p with multilineHint := none }
      match next with
      | some (.multilineValue a b c) => .yield (.multilineValue a b c) p1
      | _ => .error ⟨lno, "missing value"⟩ { p1 with errored := true }
    | none =>
      match p.needsValue with
      | some lno =>
        let p1 := { p with needsValue := none }
        match next with
        | some (.multilineHint a b) =>
          .yield (.multilineHint a b) { p1 with multilineHint := some lno }
        | some (.value a b) => .yield (.value a b) p1
        | some (.indent a) => .yield (.indent a) { p1 with stack := none :: p1.stack }
        | _ => .yield (.noValue lno) { p1 with peek := some next }
      | none =>
        match next with
        | some (.mapKey lno v) =>
          match p.stack with
          | [] => .panic
          | frame :: rest =>
            if frame = some .list then
              .error ⟨lno, "expected list item"⟩ { p with errored := true }
            else
              .yield (.mapKey lno v)
                { p with stack := some .map :: rest, needsValue := some lno }
        | some (.listItem lno) =>
          match p.stack with
          | [] => .panic
          | frame :: rest =>
            if frame = some .map then
              .error ⟨lno, "expected map key"⟩ { p with errored := true }
            else
              .yield (.listItem lno)
                { p with stack := some .list :: rest, needsValue := some lno }
        | some (.outdent lno) => .yield (.outdent lno) { p with stack := p.stack.tail }
        | none => .done { p with stack := p.stack.tail }
        | some (.indent lno) => .error ⟨lno, "unexpected indent"⟩ { p with errored := true }
        | _ => .panic

/-- One step of the parser, mirroring `Iterator::next for Parser`:
after an error every call returns `done` (Rust `None`). -/
def parserNext (p : Parser) : PStep :=
  if p.errored then .done p
  else
    match p.peek with
    | some x => parserProcess { p with peek := none } x
    | none =>
      match tokenizerNext p.tokenizer with
      | .panic => .panic
      | .yield (.error e) t2 => .error e { p with tokenizer := t2, errored := true }
      | .yield (.ok tok) t2 => parserProcess { p with tokenizer := t2 } (some tok)
      | .done t2 => parserProcess { p with tokenizer := t2 } none

/-! ## Fuelled runs -/

/-- How a fuelled run ended. -/
inductive RunEnd where
  | completed
  | failed (e : SyntaxError)
  | fuelOut
  | panicked
deriving DecidableEq, Repr

/-- Run the parser with fuel, collecting yielded tokens until the stream
ends, an error is yielded, the fuel runs out, or a panic occurs. -/
def runParser : Nat → Parser → List Token × RunEnd × Parser
  | 0, p => ([], .fuelOut, p)
  | fuel + 1, p =>
    match parserNext p with
    | .panic => ([], .panicked, p)
    | .done p2 => ([], .completed, p2)
    | .error e p2 => ([], .failed e, p2)
    | .yield tok p2 =>
      let r := runParser fuel p2
      (tok :: r.1, r.2.1, r.2.2)

/-- Run the tokenizer with fuel, collecting yielded items (tokens and
errors — the tokenizer continues past errors) until the stream ends. -/
def runTokenizer : Nat → Tokenizer → List (Except SyntaxError Token) × RunEnd × Tokenizer
  | 0, t => ([], .fuelOut, t)
  | fuel + 1, t =>
    match tokenizerNext t with
    | .panic => ([], .panicked, t)
    | .done t2 => ([], .completed, t2)
    | .yield r t2 =>
      let q := runTokenizer fuel t2
      (r :: q.1, q.2.1, q.2.2)

/-! ## Specification-side definitions -/

/-- ASCII string to input bytes, for concrete test inputs. -/
def ascii (s : String) : List Nat := s.toList.map (fun c => c.toNat)

/-- Indent-token test. -/
def Token.isIndentT : Token → Bool
  | .indent _ => true
  | _ => false

/-- Outdent-token test. -/
def Token.isOutdentT : Token → Bool
  | .outdent _ => true
  | _ => false

/-- NoValue-token test. -/
def Token.isNoValueT : Token → Bool
  | .noValue _ => true
  | _ => false

/-- MapKey-token test. -/
def Token.isMapKeyT : Token → Bool
  | .mapKey _ _ => true
  | _ => false

/-- ListItem-token test. -/
def Token.isListItemT : Token → Bool
  | .listItem _ => true
  | _ => false

/-- Token kinds that, fetched while a value is pending, make the parser
emit a synthetic `NoValue` and stash the token in the peek slot. -/
def Token.stashes : Token → Bool
  | .newline _ => false
  | .comment _ _ => false
  | .value _ _ => false
  | .multilineHint _ _ => false
  | .indent _ => false
  | _ => true

/-- Generic split of a character list at every occurrence of `sep`
(Rust `str::split`). -/
def splitOnChar (sep : Char) : List Char → List (List Char)
  | [] => [[]]
  | c :: rest =>
    if c = sep then [] :: splitOnChar sep rest
    else
      match splitOnChar sep rest with
      | [] => [[c]]
      | l :: ls => (c :: l) :: ls

/-- Split a character list into lines at every newline character
(`\n` or `\r` both separate, with no pairing). -/
def splitAnyNl : List Char → List (List Char)
  | [] => [[]]
  | c :: rest =>
    if isNlC c then [] :: splitAnyNl rest
    else
      match splitAnyNl rest with
      | [] => [[c]]
      | l :: ls => (c :: l) :: ls

/-- Strip one trailing carriage return. -/
def stripCrEnd (l : List Char) : List Char :=
  if l.getLast? = some '\r' then l.dropLast else l

/-- Specification phrasing of line splitting: split on `\n`; parts other
than a final unterminated one lose one trailing `\r`; a trailing terminator
produces no empty final line. -/
def specLines (s : List Char) : List (List Char) :=
  let ps := splitOnChar '\n' s
  if ps.getLast? = some [] then ps.dropLast.map stripCrEnd
  else ps.dropLast.map stripCrEnd ++ [(ps.getLast?).getD []]

/-- Amended-specification multiline join: proper line splitting, then the
per-line strip rule. -/
def specAmendedML (ind body : List Char) : List Char :=
  mlJoin ind 0 ((specLines body).flatMap (splitOnChar '\r'))

/-- Claim-literal multiline join: naive split on `\n` and then on `\r`,
then the per-line strip rule. -/
def specLiteralML (ind body : List Char) : List Char :=
  mlJoin ind 0 ((splitOnChar '\n' body).flatMap (splitOnChar '\r'))

/-- Specification phrasing of the multiline-hint scan: stop at a newline
or at a semicolon outside a quoted region (a quote toggles the region). -/
def specHintScan : List Nat → Bool → List Nat
  | [], _ => []
  | c :: rest, quoted =>
    if isNlB c || (c == 59 && !quoted) then []
    else c :: specHintScan rest (if c == 34 then !quoted else quoted)

/-- Remainder the tokenizer would look at next: pending stashed indent
skips whitespace consumption. -/
def exhausted (t : Tokenizer) : Prop :=
  (match t.currentIndent with
   | some _ => t.input
   | none => dropWs t.input) = []

instance (t : Tokenizer) : Decidable (exhausted t) := by
  unfold exhausted
  exact inferInstance

/-- Internal tokenizer invariant: the indent stack is non-empty with the
empty root at the bottom, any stashed indent is pure whitespace, and while
an indent is expected no value is expected. -/
def TInv (t : Tokenizer) : Prop :=
  t.indentStack ≠ [] ∧ t.indentStack.getLast? = some [] ∧
  (∀ ci, t.currentIndent = some ci → ci.all isWsB = true) ∧
  (t.expectIndent = true → t.expectValue = false)

/-- Behavioural facts guaranteed for each token kind yielded by one
tokenizer step (`t` before, `t2` after). -/
def TokFacts (t : Tokenizer) (tok : Token) (t2 : Tokenizer) : Prop :=
  match tok with
  | .newline _ =>
    t2.indentStack = t.indentStack ∧ t2.expectValue = false ∧
    (t.expectMultiline = false → t2.expectMultiline = false) ∧ ¬exhausted t
  | .comment _ _ =>
    t2.indentStack = t.indentStack ∧ t2.expectValue = t.expectValue ∧
    (t.expectMultiline = false → t2.expectMultiline = false) ∧ ¬exhausted t
  | .indent _ =>
    t2.indentStack.length = t.indentStack.length + 1 ∧ t2.expectValue = false ∧
    t2.expectMultiline = false ∧ ¬exhausted t
  | .outdent _ =>
    2 ≤ t.indentStack.length ∧ t2.indentStack.length + 1 = t.indentStack.length ∧
    ((t2.expectValue = false ∧ t2.expectMultiline = false) ∨
     (exhausted t2 ∧ (t.expectMultiline = false → t2.expectMultiline = false)))
  | .listItem _ =>
    t2.indentStack = t.indentStack ∧
    (t.expectMultiline = false → t2.expectMultiline = false) ∧ ¬exhausted t
  | .mapKey _ _ =>
    t2.indentStack = t.indentStack ∧
    (t.expectMultiline = false → t2.expectMultiline = false) ∧ ¬exhausted t
  | .value _ _ =>
    t2.indentStack = t.indentStack ∧ t.expectValue = true ∧ t2.expectValue = false ∧
    (t.expectMultiline = false → t2.expectMultiline = false) ∧ ¬exhausted t
  | .multilineHint _ _ =>
    t2.indentStack = t.indentStack ∧ t.expectValue = true ∧ t2.expectValue = false ∧
    t2.expectMultiline = true ∧ ¬exhausted t
  | .multilineValue _ _ _ =>
    t2.indentStack = t.indentStack ∧ t.expectMultiline = true ∧
    t2.expectValue = false ∧ t2.expectMultiline = false ∧ ¬exhausted t
  | .noValue _ => False

/-- Everything one tokenizer step guarantees, per outcome. -/
def TokStepOK (t : Tokenizer) (s : TStep) : Prop :=
  match s with
  | .panic => False
  | .done t2 =>
    TInv t2 ∧ t2.indentStack = t.indentStack ∧ t.indentStack.length = 1 ∧
    t2.expectMultiline = t.expectMultiline ∧ tokenizerNext t2 = .done t2
  | .yield (.error _) _ => True
  | .yield (.ok tok) t2 => TInv t2 ∧ TokFacts t tok t2

/-- One step of the section-kind checker that defines frame homogeneity:
`Indent` pushes an undecided frame, `Outdent` pops, a key or item must not
contradict the current frame and decides an undecided one. -/
def checkerStep (st : List (Option SectionType)) (tok : Token) :
    Option (List (Option SectionType)) :=
  match tok with
  | .indent _ => some (none :: st)
  | .outdent _ =>
    match st with
    | [] => none
    | _ :: rest => some rest
  | .mapKey _ _ =>
    match st with
    | [] => none
    | f :: rest => if f = some .list then none else some (some .map :: rest)
  | .listItem _ =>
    match st with
    | [] => none
    | f :: rest => if f = some .map then none else some (some .list :: rest)
  | _ => some st

/-- Run the section-kind checker over a token list. -/
def checkerRun (st : List (Option SectionType)) : List Token → Option (List (Option SectionType))
  | [] => some st
  | tok :: ts =>
    match checkerStep st tok with
    | none => none
    | some st2 => checkerRun st2 ts

/-- Number of `Indent` tokens in a list. -/
def countI (ts : List Token) : Nat := ts.countP Token.isIndentT

/-- Number of `Outdent` tokens in a list. -/
def countO (ts : List Token) : Nat := ts.countP Token.isOutdentT

/-- Peek-slot adjustment relating the parser's section stack to the
tokenizer's indent stack: a stashed `Outdent` was already popped below. -/
def peekAdj (p : Parser) : Nat :=
  match p.peek with
  | some (some (.outdent _)) => 1
  | _ => 0

/-- Joint invariant of the structural parser over the tokenizer. -/
def JInv (p : Parser) : Prop :=
  TInv p.tokenizer ∧ p.errored = false ∧
  p.stack.length = p.tokenizer.indentStack.length + peekAdj p ∧
  (∀ x, p.peek = some x →
    p.needsValue = none ∧ p.multilineHint = none ∧
    p.tokenizer.expectMultiline = false ∧
    (x = none → p.tokenizer.indentStack.length = 1 ∧
      tokenizerNext p.tokenizer = .done p.tokenizer) ∧
    (∀ tok, x = some tok →
      ((∃ l, tok = .outdent l) ∨ (∃ l v, tok = .mapKey l v) ∨ (∃ l, tok = .listItem l))) ∧
    (∀ l, x = some (.outdent l) →
      (p.tokenizer.expectValue = false ∨ exhausted p.tokenizer))) ∧
  (∀ l, p.needsValue = some l →
    p.multilineHint = none ∧ p.peek = none ∧ p.tokenizer.expectMultiline = false) ∧
  (∀ l, p.multilineHint = some l → p.needsValue = none ∧ p.peek = none) ∧
  (p.needsValue = none → p.multilineHint = none → p.peek = none →
    (p.tokenizer.expectValue = false ∨ exhausted p.tokenizer) ∧
    (p.tokenizer.expectMultiline = false ∨ exhausted p.tokenizer))

/-- Everything one parser step guarantees, per outcome. -/
def PStepOK (p : Parser) (s : PStep) : Prop :=
  match s with
  | .panic => False
  | .error _ p2 => p2.errored = true
  | .done p2 => p.stack.length = 1 ∧ p2.stack = [] ∧ parserNext p2 = .done p2
  | .yield tok p2 => JInv p2 ∧ checkerStep p.stack tok = some p2.stack

/-! ## Helper lemmas -/

theorem takeWs_all (s : List Nat) : (takeWs s).all isWsB = true := by
  simp only [takeWs, List.all_eq_true]
  intro c hc
  exact List.mem_takeWhile_imp hc

theorem exhausted_dropWs {t : Tokenizer} (h : exhausted t) : dropWs t.input = [] := by
  unfold exhausted at h
  cases hci : t.currentIndent with
  | none => rw [hci] at h; exact h
  | some ci =>
    rw [hci] at h
    have : t.input = [] := h
    rw [this]
    rfl

theorem getLast?_cons_of_ne {α : Type} (a : α) {l : List α} (h : l ≠ []) :
    (a :: l).getLast? = l.getLast? := by
  cases l with
  | nil => exact absurd rfl h
  | cons b m => simp [List.getLast?_cons_cons]

theorem consumeComment_spec (t : Tokenizer) (rest : List Nat) :
    (∃ e t2, consumeComment t rest = (.error e, t2)) ∨
    (∃ s inp2, consumeComment t rest = (.ok (.comment t.lno s), { t with input := inp2 })) := by
  simp only [consumeComment]
  cases h : utf8Decode (rest.take (rest.findIdx fun c => isNlB c)) with
  | none => exact .inl ⟨_, _, rfl⟩
  | some s => exact .inr ⟨_, _, rfl⟩

theorem consumeMultilineHint_spec (t : Tokenizer) (rest : List Nat) :
    (∃ e t2, consumeMultilineHint t rest = (.error e, t2)) ∨
    (∃ s inp2, consumeMultilineHint t rest =
      (.ok (.multilineHint t.lno s), { t with input := inp2, expectMultiline := true })) := by
  simp only [consumeMultilineHint]
  cases h : utf8Decode (rest.take (rest.findIdx fun c => isNlB c || c == 59)) with
  | none => exact .inl ⟨_, _, rfl⟩
  | some s => exact .inr ⟨_, _, rfl⟩

theorem consumeValue_spec (t : Tokenizer) (rest : List Nat) :
    (∃ e t2, consumeValue t rest = (.error e, t2)) ∨
    (∃ s inp2, consumeValue t rest = (.ok (.value t.lno s), { t with input := inp2 })) ∨
    (∃ s inp2, consumeValue t rest =
      (.ok (.multilineHint t.lno s), { t with input := inp2, expectMultiline := true })) := by
  simp only [consumeValue]
  split
  · rcases consumeMultilineHint_spec t _ with ⟨e, t2, hh⟩ | ⟨s, inp2, hh⟩
    · exact .inl ⟨e, t2, hh⟩
    · exact .inr (.inr ⟨s, inp2, hh⟩)
  · cases h : utf8Decode (rest.take (valueEnd rest (rest.head? == some 34) false true)) with
    | none => exact .inl ⟨_, _, rfl⟩
    | some s => exact .inr (.inl ⟨_, _, rfl⟩)

theorem consumeKey_spec (t : Tokenizer) (rest : List Nat) :
    (∃ e t2, consumeKey t rest = (.error e, t2)) ∨
    (∃ s inp2, consumeKey t rest =
      (.ok (.mapKey t.lno s), { t with expectValue := true, input := inp2 })) := by
  simp only [consumeKey]
  cases h : utf8Decode (rest.take (keyEnd rest (rest.head? == some 34) false true)) with
  | none => exact .inl ⟨_, _, rfl⟩
  | some s => exact .inr ⟨_, _, rfl⟩

theorem utf8Decode_ascii {bs : List Nat} (h : ∀ b ∈ bs, b < 128) :
    utf8Decode bs = some (bs.map Char.ofNat) := by
  induction bs with
  | nil => simp [utf8Decode]
  | cons b rest ih =>
    have hb : b < 128 := h b (List.mem_cons_self b rest)
    have ih2 := ih (fun c hc => h c (List.mem_cons_of_mem b hc))
    rw [utf8Decode.eq_def]
    simp only [List.map_cons]
    rw [if_pos hb, ih2]
    rfl

theorem consumeMultiline_spec (t : Tokenizer) (ind : List Nat)
    (hws : ind.all isWsB = true) :
    (∃ e t2, consumeMultiline t ind = .yield (.error e) t2) ∨
    (∃ indS b inp2 ln2, consumeMultiline t ind =
      .yield (.ok (.multilineValue t.lno indS b)) { t with input := inp2, lno := ln2 }) := by
  cases h : utf8Decode (t.input.take (mlScan ind (splitInclusiveNl t.input) false).1) with
  | none =>
    left
    exact ⟨⟨t.lno, "invalid UTF-8"⟩,
      { t with input := t.input.drop (mlScan ind (splitInclusiveNl t.input) false).1,
               lno := t.lno + (mlScan ind (splitInclusiveNl t.input) false).2 },
      by simp [consumeMultiline, h]⟩
  | some s =>
    have hd : utf8Decode ind = some (ind.map Char.ofNat) := by
      refine utf8Decode_ascii (fun b hb => ?_)
      have := (List.all_eq_true.mp hws) b hb
      simp only [isWsB, Bool.or_eq_true, beq_iff_eq] at this
      omega
    right
    exact ⟨ind.map Char.ofNat, trimMatches (fun c => isNlC c || isWsC c) s,
      t.input.drop (mlScan ind (splitInclusiveNl t.input) false).1,
      t.lno + (mlScan ind (splitInclusiveNl t.input) false).2,
      by simp [consumeMultiline, h, hd]⟩

theorem tokFinal_ok (t0 : Tokenizer) (inp : List Nat) (stk : List (List Nat))
    (ev emF : Bool) (ln : Nat) (rest : List Nat)
    (hstk : stk = t0.indentStack)
    (hne : t0.indentStack ≠ []) (hlast : t0.indentStack.getLast? = some [])
    (hev : ev = t0.expectValue)
    (hem : t0.expectMultiline = false → emF = false)
    (hex : ¬exhausted t0) :
    TokStepOK t0 (tokFinal ⟨inp, stk, none, false, ev, emF, ln⟩ rest) := by
  subst hstk
  subst hev
  have hTI : ∀ inp3 ev3 em3 ln3,
      TInv ⟨inp3, t0.indentStack, none, false, ev3, em3, ln3⟩ := by
    intro inp3 ev3 em3 ln3
    refine ⟨hne, hlast, ?_, ?_⟩
    · intro ci h
      simp at h
    · intro h
      simp at h
  unfold tokFinal
  split
  · -- list item
    refine ⟨hTI .., rfl, hem, hex⟩
  · split
    · -- value or multiline hint
      rename_i hcond hev2
      have hev3 : t0.expectValue = true := hev2
      rcases consumeValue_spec
          ⟨inp, t0.indentStack, none, false, false, emF, ln⟩ rest with
        ⟨e, t2, hh⟩ | ⟨s, inp2, hh⟩ | ⟨s, inp2, hh⟩ <;> rw [hh]
      · trivial
      · exact ⟨hTI .., rfl, hev3, rfl, hem, hex⟩
      · exact ⟨hTI .., rfl, hev3, rfl, rfl, hex⟩
    · -- map key
      rcases consumeKey_spec
          ⟨inp, t0.indentStack, none, false, t0.expectValue, emF, ln⟩ rest with
        ⟨e, t2, hh⟩ | ⟨s, inp2, hh⟩ <;> rw [hh]
      · trivial
      · exact ⟨hTI .., rfl, hem, hex⟩

theorem tokDispatch_ok (t0 : Tokenizer) (inp : List Nat) (stkrest : List (List Nat))
    (current indent rest : List Nat) (ln : Nat)
    (hstk : current :: stkrest = t0.indentStack)
    (hlast : t0.indentStack.getLast? = some [])
    (hev : t0.expectValue = false)
    (hws : indent.all isWsB = true)
    (hex : ¬exhausted t0) :
    TokStepOK t0
      (tokDispatch ⟨inp, current :: stkrest, none, false, t0.expectValue, false, ln⟩
        current indent rest) := by
  unfold tokDispatch
  split
  · rename_i hneq
    split
    · -- push, emit Indent
      rename_i hdeep
      refine ⟨⟨by simp, ?_, ?_, ?_⟩, ?_, hev, rfl, hex⟩
      · show (indent :: current :: stkrest).getLast? = some []
        rw [getLast?_cons_of_ne indent (by simp), hstk]
        exact hlast
      · intro ci h
        simp at h
      · intro h
        simp at h
      · show (indent :: current :: stkrest).length = t0.indentStack.length + 1
        rw [← hstk]
        simp
    · -- pop, stash, emit Outdent
      rename_i hdeep
      have hni : stkrest ≠ [] := by
        intro hcon
        subst hcon
        have hc : current = [] := by
          rw [← hstk] at hlast
          simpa using hlast
        subst hc
        have : indent ≠ [] := fun hi => hneq (hi ▸ rfl)
        have hlen : ([] : List Nat).length < indent.length := by
          cases indent with
          | nil => exact absurd rfl this
          | cons a l => simp
        rw [Bool.not_eq_true] at hdeep
        simp only [Bool.and_eq_false_iff] at hdeep
        rcases hdeep with h1 | h2
        · exact absurd (decide_eq_true hlen) (by simpa using h1)
        · simp [List.isPrefixOf] at h2
      refine ⟨⟨?_, ?_, ?_, ?_⟩, ?_, ?_, ?_⟩
      · show stkrest ≠ []
        exact hni
      · show stkrest.getLast? = some []
        rw [← hstk] at hlast
        rwa [getLast?_cons_of_ne current hni] at hlast
      · intro ci h
        simp only [Option.some.injEq] at h
        rw [← h]
        exact hws
      · intro h
        exact hev
      · show 2 ≤ t0.indentStack.length
        rw [← hstk]
        cases stkrest with
        | nil => exact absurd rfl hni
        | cons a l => simp [Nat.succ_le_succ, Nat.le_add_left]
      · show stkrest.length + 1 = t0.indentStack.length
        rw [← hstk]
        simp
      · exact .inl ⟨hev, rfl⟩
  · -- same indent: value, key or list item
    exact tokFinal_ok t0 inp (current :: stkrest) t0.expectValue false ln rest hstk
      (hstk ▸ (by simp)) hlast rfl (fun _ => rfl) hex

theorem tokBody_ok (t0 : Tokenizer) (indent rest : List Nat) (hT : TInv t0)
    (hws : indent.all isWsB = true)
    (hex : rest = [] ↔ exhausted t0) :
    TokStepOK t0 (tokBody { t0 with currentIndent := none } indent rest) := by
  obtain ⟨hne, hlast, hci, hG⟩ := hT
  obtain ⟨inp, stk, ci0, ei, ev, em, ln⟩ := t0
  show TokStepOK _ (tokBody ⟨inp, stk, none, ei, ev, em, ln⟩ indent rest)
  cases rest with
  | nil =>
    have hexx : exhausted ⟨inp, stk, ci0, ei, ev, em, ln⟩ := hex.mp rfl
    have hdw : dropWs inp = [] := exhausted_dropWs hexx
    simp only [tokBody]
    by_cases hlen : stk.length > 1
    · rw [if_pos hlen]
      refine ⟨⟨?_, ?_, fun ci h => by simp at h, hG⟩, hlen, ?_, .inr ⟨?_, fun h => h⟩⟩
      · show stk.tail ≠ []
        cases stk with
        | nil => simp at hlen
        | cons a l =>
          cases l with
          | nil => simp at hlen
          | cons b m => simp
      · show stk.tail.getLast? = some []
        cases stk with
        | nil => simp at hlen
        | cons a l =>
          cases l with
          | nil => simp at hlen
          | cons b m => simpa [List.getLast?_cons_cons] using hlast
      · show stk.tail.length + 1 = stk.length
        cases stk with
        | nil => simp at hlen
        | cons a l => simp
      · show exhausted _
        unfold exhausted
        exact hdw
    · rw [if_neg hlen]
      have hl1 : stk.length = 1 := by
        cases stk with
        | nil => exact absurd rfl hne
        | cons a l => simp only [List.length_cons, gt_iff_lt] at hlen ⊢; omega
      refine ⟨⟨hne, hlast, fun ci h => by simp at h, hG⟩, rfl, hl1, rfl, ?_⟩
      show tokenizerNext ⟨inp, stk, none, ei, ev, em, ln⟩ = .done ⟨inp, stk, none, ei, ev, em, ln⟩
      show tokBody ⟨inp, stk, none, ei, ev, em, ln⟩ (takeWs inp) (dropWs inp) = _
      rw [hdw]
      simp only [tokBody]
      rw [if_neg hlen]
  | cons c crest =>
    have hnex : ¬exhausted ⟨inp, stk, ci0, ei, ev, em, ln⟩ := by
      intro he
      have := hex.mpr he
      simp at this
    simp only [tokBody]
    by_cases hnl : isNlB c = true
    · rw [if_pos hnl]
      exact ⟨⟨hne, hlast, fun ci h => by simp at h, fun h => rfl⟩, rfl, rfl, fun h => h, hnex⟩
    · rw [if_neg hnl]
      by_cases hcm : (c == 59 && !(ei && em)) = true
      · rw [if_pos hcm]
        rcases consumeComment_spec ⟨inp, stk, none, ei, ev, em, ln⟩ (c :: crest).tail with
          ⟨e, t2, hh⟩ | ⟨s, inp2, hh⟩ <;> rw [hh]
        · trivial
        · exact ⟨⟨hne, hlast, fun ci h => by simp at h, hG⟩, rfl, rfl, fun h => h, hnex⟩
      · rw [if_neg hcm]
        by_cases hei : ei = true
        · rw [if_pos hei]
          have hev : ev = false := hG hei
          subst hev
          subst hei
          cases stk with
          | nil => exact absurd rfl hne
          | cons current stkrest =>
            show TokStepOK _
              (if em = true then
                if current.length < indent.length && current.isPrefixOf indent then
                  consumeMultiline ⟨inp, current :: stkrest, none, false, false, false, ln⟩ indent
                else
                  tokDispatch ⟨inp, current :: stkrest, none, false, false, false, ln⟩
                    current indent (c :: crest)
              else
                tokDispatch ⟨inp, current :: stkrest, none, false, false, em, ln⟩
                  current indent (c :: crest))
            by_cases hem : em = true
            · rw [if_pos hem]
              by_cases hdeep : (current.length < indent.length && current.isPrefixOf indent) = true
              · rw [if_pos hdeep]
                rcases consumeMultiline_spec
                    ⟨inp, current :: stkrest, none, false, false, false, ln⟩ indent hws with
                  ⟨e, t2, hh⟩ | ⟨indS, b, inp2, ln2, hh⟩ <;> rw [hh]
                · trivial
                · exact ⟨⟨hne, hlast, fun ci h => by simp at h, fun h => by simp at h⟩,
                    rfl, hem, rfl, rfl, hnex⟩
              · rw [if_neg hdeep]
                exact tokDispatch_ok ⟨inp, current :: stkrest, ci0, true, false, em, ln⟩
                  inp stkrest current indent (c :: crest) ln rfl hlast rfl hws hnex
            · rw [if_neg hem]
              have hemF : em = false := by simpa using hem
              subst hemF
              exact tokDispatch_ok ⟨inp, current :: stkrest, ci0, true, false, false, ln⟩
                inp stkrest current indent (c :: crest) ln rfl hlast rfl hws hnex
        · rw [if_neg hei]
          have heiF : ei = false := by simpa using hei
          subst heiF
          exact tokFinal_ok ⟨inp, stk, ci0, false, ev, em, ln⟩
            inp stk ev em ln (c :: crest) rfl hne hlast rfl (fun h => h) hnex

theorem tokStep (t0 : Tokenizer) (hT : TInv t0) : TokStepOK t0 (tokenizerNext t0) := by
  unfold tokenizerNext
  cases hci : t0.currentIndent with
  | some ci =>
    have hws : ci.all isWsB = true := hT.2.2.1 ci hci
    have hex : (t0.input = []) ↔ exhausted t0 := by
      unfold exhausted
      rw [hci]
    exact tokBody_ok t0 ci t0.input hT hws hex
  | none =>
    have hws : (takeWs t0.input).all isWsB = true := takeWs_all t0.input
    have hex : (dropWs t0.input = []) ↔ exhausted t0 := by
      unfold exhausted
      rw [hci]
    have h1 : { t0 with currentIndent := none } = t0 := by
      obtain ⟨inp, stk, ci0, ei, ev, em, ln⟩ := t0
      simp only at hci
      rw [hci]
    have h2 := tokBody_ok t0 (takeWs t0.input) (dropWs t0.input) hT hws hex
    rw [h1] at h2
    exact h2

theorem JInv_clean (t : Tokenizer) (stk : List (Option SectionType)) (hTI : TInv t)
    (hB : stk.length = t.indentStack.length)
    (hev : t.expectValue = false ∨ exhausted t)
    (hem : t.expectMultiline = false ∨ exhausted t) :
    JInv ⟨t, none, none, none, false, stk⟩ := by
  refine ⟨hTI, rfl, ?_, ?_, ?_, ?_, ?_⟩
  · simpa [peekAdj] using hB
  · intro x hx
    exact Option.noConfusion hx
  · intro l hl
    exact Option.noConfusion hl
  · intro l hl
    exact Option.noConfusion hl
  · intro h1 h2 h3
    exact ⟨hev, hem⟩

theorem JInv_nv (t : Tokenizer) (stk : List (Option SectionType)) (lno : Nat)
    (hTI : TInv t) (hB : stk.length = t.indentStack.length)
    (hem : t.expectMultiline = false) :
    JInv ⟨t, none, none, some lno, false, stk⟩ := by
  refine ⟨hTI, rfl, ?_, ?_, ?_, ?_, ?_⟩
  · simpa [peekAdj] using hB
  · intro x hx
    exact Option.noConfusion hx
  · intro l hl
    exact ⟨rfl, rfl, hem⟩
  · intro l hl
    exact Option.noConfusion hl
  · intro h1 h2 h3
    exact absurd h1 (by simp)

theorem JInv_mh (t : Tokenizer) (stk : List (Option SectionType)) (lno : Nat)
    (hTI : TInv t) (hB : stk.length = t.indentStack.length) :
    JInv ⟨t, none, some lno, none, false, stk⟩ := by
  refine ⟨hTI, rfl, ?_, ?_, ?_, ?_, ?_⟩
  · simpa [peekAdj] using hB
  · intro x hx
    exact Option.noConfusion hx
  · intro l hl
    exact Option.noConfusion hl
  · intro l hl
    exact ⟨rfl, rfl⟩
  · intro h1 h2 h3
    exact absurd h2 (by simp)

theorem JInv_stashNone (t : Tokenizer) (stk : List (Option SectionType))
    (hTI : TInv t) (hB : stk.length = t.indentStack.length)
    (hem : t.expectMultiline = false)
    (hlen : t.indentStack.length = 1)
    (hfix : tokenizerNext t = .done t) :
    JInv ⟨t, some none, none, none, false, stk⟩ := by
  refine ⟨hTI, rfl, ?_, ?_, ?_, ?_, ?_⟩
  · simpa [peekAdj] using hB
  · intro x hx
    cases hx
    refine ⟨rfl, rfl, hem, fun _ => ⟨hlen, hfix⟩, ?_, ?_⟩
    · intro tok htok
      exact Option.noConfusion htok
    · intro l hl
      exact Option.noConfusion hl
  · intro l hl
    exact Option.noConfusion hl
  · intro l hl
    exact Option.noConfusion hl
  · intro h1 h2 h3
    exact absurd h3 (by simp)

theorem JInv_stashOut (t : Tokenizer) (stk : List (Option SectionType)) (l : Nat)
    (hTI : TInv t) (hB : stk.length = t.indentStack.length + 1)
    (hem : t.expectMultiline = false)
    (hov : t.expectValue = false ∨ exhausted t) :
    JInv ⟨t, some (some (.outdent l)), none, none, false, stk⟩ := by
  refine ⟨hTI, rfl, ?_, ?_, ?_, ?_, ?_⟩
  · simpa [peekAdj] using hB
  · intro x hx
    cases hx
    refine ⟨rfl, rfl, hem, fun hc => Option.noConfusion hc, ?_, ?_⟩
    · intro tok htok
      cases htok
      exact .inl ⟨l, rfl⟩
    · intro l2 hl2
      exact hov
  · intro l2 hl2
    exact Option.noConfusion hl2
  · intro l2 hl2
    exact Option.noConfusion hl2
  · intro h1 h2 h3
    exact absurd h3 (by simp)

theorem JInv_stashKey (t : Tokenizer) (stk : List (Option SectionType)) (l : Nat)
    (v : List Char)
    (hTI : TInv t) (hB : stk.length = t.indentStack.length)
    (hem : t.expectMultiline = false) :
    JInv ⟨t, some (some (.mapKey l v)), none, none, false, stk⟩ := by
  refine ⟨hTI, rfl, ?_, ?_, ?_, ?_, ?_⟩
  · simpa [peekAdj] using hB
  · intro x hx
    cases hx
    refine ⟨rfl, rfl, hem, fun hc => Option.noConfusion hc, ?_, ?_⟩
    · intro tok htok
      cases htok
      exact .inr (.inl ⟨l, v, rfl⟩)
    · intro l2 hl2
      simp at hl2
  · intro l2 hl2
    exact Option.noConfusion hl2
  · intro l2 hl2
    exact Option.noConfusion hl2
  · intro h1 h2 h3
    exact absurd h3 (by simp)

theorem JInv_stashItem (t : Tokenizer) (stk : List (Option SectionType)) (l : Nat)
    (hTI : TInv t) (hB : stk.length = t.indentStack.length)
    (hem : t.expectMultiline = false) :
    JInv ⟨t, some (some (.listItem l)), none, none, false, stk⟩ := by
  refine ⟨hTI, rfl, ?_, ?_, ?_, ?_, ?_⟩
  · simpa [peekAdj] using hB
  · intro x hx
    cases hx
    refine ⟨rfl, rfl, hem, fun hc => Option.noConfusion hc, ?_, ?_⟩
    · intro tok htok
      cases htok
      exact .inr (.inr ⟨l, rfl⟩)
    · intro l2 hl2
      simp at hl2
  · intro l2 hl2
    exact Option.noConfusion hl2
  · intro l2 hl2
    exact Option.noConfusion hl2
  · intro h1 h2 h3
    exact absurd h3 (by simp)

theorem peekAdj_none (t : Tokenizer) (mh nv : Option Nat) (er : Bool)
    (stk : List (Option SectionType)) : peekAdj ⟨t, none, mh, nv, er, stk⟩ = 0 := rfl

theorem peekAdj_someNone (t : Tokenizer) (mh nv : Option Nat) (er : Bool)
    (stk : List (Option SectionType)) : peekAdj ⟨t, some none, mh, nv, er, stk⟩ = 0 := rfl

theorem peekAdj_out (t : Tokenizer) (l : Nat) (mh nv : Option Nat) (er : Bool)
    (stk : List (Option SectionType)) :
    peekAdj ⟨t, some (some (.outdent l)), mh, nv, er, stk⟩ = 1 := rfl

theorem peekAdj_key (t : Tokenizer) (l : Nat) (v : List Char) (mh nv : Option Nat) (er : Bool)
    (stk : List (Option SectionType)) :
    peekAdj ⟨t, some (some (.mapKey l v)), mh, nv, er, stk⟩ = 0 := rfl

theorem peekAdj_item (t : Tokenizer) (l : Nat) (mh nv : Option Nat) (er : Bool)
    (stk : List (Option SectionType)) :
    peekAdj ⟨t, some (some (.listItem l)), mh, nv, er, stk⟩ = 0 := rfl

theorem pstep (p : Parser) (hJ : JInv p) : PStepOK p (parserNext p) := by
  obtain ⟨hTI, herr, hB, hPk, hNV, hMH, hF⟩ := hJ
  obtain ⟨tk, pk, mh, nv, er, stk⟩ := p
  have herr2 : er = false := herr
  subst herr2
  have hB0 : stk.length = tk.indentStack.length + peekAdj ⟨tk, pk, mh, nv, false, stk⟩ := hB
  have htkpos : 1 ≤ tk.indentStack.length := by
    have := hTI.1
    cases htk : tk.indentStack with
    | nil => exact absurd htk this
    | cons a l => simp
  cases pk with
  | some x =>
    obtain ⟨hnv0, hmh0, hem0, hxn, hshape, hout⟩ := hPk x rfl
    have hnv1 : nv = none := hnv0
    have hmh1 : mh = none := hmh0
    subst hnv1
    subst hmh1
    show PStepOK _ (parserProcess ⟨tk, none, none, none, false, stk⟩ x)
    cases x with
    | none =>
      obtain ⟨hlen1, hfix⟩ := hxn rfl
      have hlen1a : tk.indentStack.length = 1 := hlen1
      have hfixa : tokenizerNext tk = .done tk := hfix
      have hB2 : stk.length = 1 := by
        rw [peekAdj_someNone] at hB0
        omega
      have htl : stk.tail = [] := by
        cases stk with
        | nil => rfl
        | cons a l =>
          cases l with
          | nil => rfl
          | cons b m => simp at hB2
      show PStepOK _ (.done ⟨tk, none, none, none, false, stk.tail⟩)
      rw [htl]
      refine ⟨hB2, rfl, ?_⟩
      show parserNext ⟨tk, none, none, none, false, []⟩ = _
      simp only [parserNext]
      rw [hfixa]
      rfl
    | some tok =>
      rcases hshape tok rfl with ⟨l, rfl⟩ | ⟨l, v, rfl⟩ | ⟨l, rfl⟩
      · -- stashed Outdent
        have hB2 : stk.length = tk.indentStack.length + 1 := by
          rw [peekAdj_out] at hB0
          exact hB0
        cases stk with
        | nil => simp at hB2
        | cons f rest =>
          refine ⟨?_, rfl⟩
          refine JInv_clean tk rest hTI ?_ (hout l rfl) (.inl hem0)
          simp only [List.length_cons] at hB2
          omega
      · -- stashed MapKey
        have hB2 : stk.length = tk.indentStack.length := by
          rw [peekAdj_key] at hB0
          omega
        cases stk with
        | nil => rw [List.length_nil] at hB2; omega
        | cons f rest =>
          show PStepOK _
            (if f = some SectionType.list then
              .error ⟨l, "expected list item"⟩ ⟨tk, none, none, none, true, f :: rest⟩
            else
              .yield (.mapKey l v) ⟨tk, none, none, some l, false, some .map :: rest⟩)
          by_cases hf : f = some SectionType.list
          · rw [if_pos hf]
            exact rfl
          · rw [if_neg hf]
            refine ⟨?_, ?_⟩
            · refine JInv_nv tk (some .map :: rest) l hTI ?_ hem0
              simpa using hB2
            · show checkerStep (f :: rest) (.mapKey l v) = _
              simp only [checkerStep, if_neg hf]
      · -- stashed ListItem
        have hB2 : stk.length = tk.indentStack.length := by
          rw [peekAdj_item] at hB0
          omega
        cases stk with
        | nil => rw [List.length_nil] at hB2; omega
        | cons f rest =>
          show PStepOK _
            (if f = some SectionType.map then
              .error ⟨l, "expected map key"⟩ ⟨tk, none, none, none, true, f :: rest⟩
            else
              .yield (.listItem l) ⟨tk, none, none, some l, false, some .list :: rest⟩)
          by_cases hf : f = some SectionType.map
          · rw [if_pos hf]
            exact rfl
          · rw [if_neg hf]
            refine ⟨?_, ?_⟩
            · refine JInv_nv tk (some .list :: rest) l hTI ?_ hem0
              simpa using hB2
            · show checkerStep (f :: rest) (.listItem l) = _
              simp only [checkerStep, if_neg hf]
  | none =>
    have hstep := tokStep tk hTI
    have hB2 : stk.length = tk.indentStack.length := by
      rw [peekAdj_none] at hB0
      omega
    show PStepOK _ (parserNext ⟨tk, none, mh, nv, false, stk⟩)
    simp only [parserNext]
    cases ht : tokenizerNext tk with
    | panic =>
      rw [ht] at hstep
      exact hstep
    | done t2 =>
      rw [ht] at hstep
      obtain ⟨hTI2, hseq, hlen1, hemp, hfix⟩ := hstep
      cases mh with
      | some lno => exact rfl
      | none =>
        cases nv with
        | some lno =>
          obtain ⟨hmh2, hpk2, hemtk⟩ := hNV lno rfl
          refine ⟨?_, rfl⟩
          refine JInv_stashNone t2 stk hTI2 ?_ ?_ ?_ hfix
          · rw [hseq]; exact hB2
          · rw [hemp]; exact hemtk
          · rw [hseq]; exact hlen1
        | none =>
          have hB3 : stk.length = 1 := by rw [hB2]; exact hlen1
          have htl : stk.tail = [] := by
            cases stk with
            | nil => rfl
            | cons a l =>
              cases l with
              | nil => rfl
              | cons b m => simp at hB3
          show PStepOK _ (.done ⟨t2, none, none, none, false, stk.tail⟩)
          rw [htl]
          refine ⟨hB3, rfl, ?_⟩
          show parserNext ⟨t2, none, none, none, false, []⟩ = _
          simp only [parserNext]
          rw [hfix]
          rfl
    | yield r t2 =>
      cases r with
      | error e =>
        exact rfl
      | ok tok =>
        rw [ht] at hstep
        obtain ⟨hTI2, hFacts⟩ := hstep
        cases tok with
        | noValue l => exact hFacts.elim
        | newline l =>
          obtain ⟨hseq, hev2, hcond, hnex⟩ := hFacts
          refine ⟨?_, rfl⟩
          refine ⟨hTI2, rfl, ?_, ?_, ?_, ?_, ?_⟩
          · simp only [peekAdj_none]
            show stk.length = t2.indentStack.length + 0
            rw [hseq]
            omega
          · intro x hx
            exact Option.noConfusion hx
          · intro l2 hl2
            obtain ⟨ha, hb, hc⟩ := hNV l2 hl2
            exact ⟨ha, rfl, hcond hc⟩
          · intro l2 hl2
            obtain ⟨ha, hb⟩ := hMH l2 hl2
            exact ⟨ha, rfl⟩
          · intro h1 h2 h3
            obtain ⟨hevo, hemo⟩ := hF h1 h2 rfl
            refine ⟨.inl hev2, .inl (hcond ?_)⟩
            rcases hemo with hh | hh
            · exact hh
            · exact absurd hh hnex
        | comment l s =>
          obtain ⟨hseq, hev2, hcond, hnex⟩ := hFacts
          refine ⟨?_, rfl⟩
          refine ⟨hTI2, rfl, ?_, ?_, ?_, ?_, ?_⟩
          · simp only [peekAdj_none]
            show stk.length = t2.indentStack.length + 0
            rw [hseq]
            omega
          · intro x hx
            exact Option.noConfusion hx
          · intro l2 hl2
            obtain ⟨ha, hb, hc⟩ := hNV l2 hl2
            exact ⟨ha, rfl, hcond hc⟩
          · intro l2 hl2
            obtain ⟨ha, hb⟩ := hMH l2 hl2
            exact ⟨ha, rfl⟩
          · intro h1 h2 h3
            obtain ⟨hevo, hemo⟩ := hF h1 h2 rfl
            refine ⟨?_, .inl (hcond ?_)⟩
            · rcases hevo with hh | hh
              · exact .inl (hev2.trans hh)
              · exact absurd hh hnex
            · rcases hemo with hh | hh
              · exact hh
              · exact absurd hh hnex
        | multilineValue a b c3 =>
          obtain ⟨hseq, hemT, hev2, hem2, hnex⟩ := hFacts
          cases mh with
          | some lno =>
            obtain ⟨hnv2, hpk2⟩ := hMH lno rfl
            have hnv3 : nv = none := hnv2
            subst hnv3
            refine ⟨?_, rfl⟩
            refine JInv_clean t2 stk hTI2 ?_ (.inl hev2) (.inl hem2)
            rw [hseq]
            exact hB2
          | none =>
            cases nv with
            | some lno =>
              have hx : tk.expectMultiline = false := (hNV lno rfl).2.2
              rw [hx] at hemT
              exact Bool.noConfusion hemT
            | none =>
              rcases (hF rfl rfl rfl).2 with hh | hh
              · have hh2 : tk.expectMultiline = false := hh
                rw [hh2] at hemT
                exact Bool.noConfusion hemT
              · exact absurd hh hnex
        | multilineHint a b =>
          obtain ⟨hseq, hevT, hev2, hem2, hnex⟩ := hFacts
          cases mh with
          | some lno => exact rfl
          | none =>
            cases nv with
            | some lno =>
              refine ⟨?_, rfl⟩
              refine JInv_mh t2 stk lno hTI2 ?_
              rw [hseq]
              exact hB2
            | none =>
              rcases (hF rfl rfl rfl).1 with hh | hh
              · have hh2 : tk.expectValue = false := hh
                rw [hh2] at hevT
                exact Bool.noConfusion hevT
              · exact absurd hh hnex
        | value a b =>
          obtain ⟨hseq, hevT, hev2, hcond, hnex⟩ := hFacts
          cases mh with
          | some lno => exact rfl
          | none =>
            cases nv with
            | some lno =>
              obtain ⟨hmh2, hpk2, hemtk⟩ := hNV lno rfl
              refine ⟨?_, rfl⟩
              refine JInv_clean t2 stk hTI2 ?_ (.inl hev2) (.inl (hcond hemtk))
              rw [hseq]
              exact hB2
            | none =>
              rcases (hF rfl rfl rfl).1 with hh | hh
              · have hh2 : tk.expectValue = false := hh
                rw [hh2] at hevT
                exact Bool.noConfusion hevT
              · exact absurd hh hnex
        | indent l =>
          obtain ⟨hlen2, hev2, hem2, hnex⟩ := hFacts
          cases mh with
          | some lno => exact rfl
          | none =>
            cases nv with
            | some lno =>
              refine ⟨?_, rfl⟩
              refine JInv_clean t2 (none :: stk) hTI2 ?_ (.inl hev2) (.inl hem2)
              rw [hlen2]
              simp [hB2]
            | none => exact rfl
        | outdent l =>
          obtain ⟨hlen2, hlen3, hdisj⟩ := hFacts
          cases mh with
          | some lno => exact rfl
          | none =>
            cases nv with
            | some lno =>
              obtain ⟨hmh2, hpk2, hemtk⟩ := hNV lno rfl
              refine ⟨?_, rfl⟩
              refine JInv_stashOut t2 stk l hTI2 ?_ ?_ ?_
              · rw [hB2]
                omega
              · rcases hdisj with ⟨hh1, hh2⟩ | ⟨hh1, hh2⟩
                · exact hh2
                · exact hh2 hemtk
              · rcases hdisj with ⟨hh1, hh2⟩ | ⟨hh1, hh2⟩
                · exact .inl hh1
                · exact .inr hh1
            | none =>
              have hstk2 : 2 ≤ stk.length := by omega
              cases stk with
              | nil => simp at hstk2
              | cons f rest =>
                refine ⟨?_, ?_⟩
                · refine JInv_clean t2 rest hTI2 ?_ ?_ ?_
                  · simp only [List.length_cons] at hB2
                    omega
                  · rcases hdisj with ⟨hh1, hh2⟩ | ⟨hh1, hh2⟩
                    · exact .inl hh1
                    · exact .inr hh1
                  · rcases hdisj with ⟨hh1, hh2⟩ | ⟨hh1, hh2⟩
                    · exact .inl hh2
                    · exact .inr hh1
                · show checkerStep (f :: rest) (.outdent l) = _
                  rfl
        | mapKey l v =>
          obtain ⟨hseq, hcond, hnex⟩ := hFacts
          cases mh with
          | some lno => exact rfl
          | none =>
            cases nv with
            | some lno =>
              obtain ⟨hmh2, hpk2, hemtk⟩ := hNV lno rfl
              refine ⟨?_, rfl⟩
              refine JInv_stashKey t2 stk l v hTI2 ?_ (hcond hemtk)
              rw [hseq]
              exact hB2
            | none =>
              have hemtk : tk.expectMultiline = false := by
                rcases (hF rfl rfl rfl).2 with hh | hh
                · exact hh
                · exact absurd hh hnex
              cases stk with
              | nil => rw [List.length_nil] at hB2; omega
              | cons f rest =>
                show PStepOK _
                  (if f = some SectionType.list then
                    .error ⟨l, "expected list item"⟩ ⟨t2, none, none, none, true, f :: rest⟩
                  else
                    .yield (.mapKey l v) ⟨t2, none, none, some l, false, some .map :: rest⟩)
                by_cases hf : f = some SectionType.list
                · rw [if_pos hf]
                  exact rfl
                · rw [if_neg hf]
                  refine ⟨?_, ?_⟩
                  · refine JInv_nv t2 (some .map :: rest) l hTI2 ?_ (hcond hemtk)
                    rw [hseq]
                    simpa using hB2
                  · show checkerStep (f :: rest) (.mapKey l v) = _
                    simp only [checkerStep, if_neg hf]
        | listItem l =>
          obtain ⟨hseq, hcond, hnex⟩ := hFacts
          cases mh with
          | some lno => exact rfl
          | none =>
            cases nv with
            | some lno =>
              obtain ⟨hmh2, hpk2, hemtk⟩ := hNV lno rfl
              refine ⟨?_, rfl⟩
              refine JInv_stashItem t2 stk l hTI2 ?_ (hcond hemtk)
              rw [hseq]
              exact hB2
            | none =>
              have hemtk : tk.expectMultiline = false := by
                rcases (hF rfl rfl rfl).2 with hh | hh
                · exact hh
                · exact absurd hh hnex
              cases stk with
              | nil => rw [List.length_nil] at hB2; omega
              | cons f rest =>
                show PStepOK _
                  (if f = some SectionType.map then
                    .error ⟨l, "expected map key"⟩ ⟨t2, none, none, none, true, f :: rest⟩
                  else
                    .yield (.listItem l) ⟨t2, none, none, some l, false, some .list :: rest⟩)
                by_cases hf : f = some SectionType.map
                · rw [if_pos hf]
                  exact rfl
                · rw [if_neg hf]
                  refine ⟨?_, ?_⟩
                  · refine JInv_nv t2 (some .list :: rest) l hTI2 ?_ (hcond hemtk)
                    rw [hseq]
                    simpa using hB2
                  · show checkerStep (f :: rest) (.listItem l) = _
                    simp only [checkerStep, if_neg hf]

/-- One checker step changes the stack length by +1 on `Indent`, by -1 on
`Outdent`, and not at all otherwise. -/
theorem checkerStep_len {st st2 : List (Option SectionType)} {tok : Token}
    (h : checkerStep st tok = some st2) :
    st2.length + (if tok.isOutdentT then 1 else 0) =
      st.length + (if tok.isIndentT then 1 else 0) := by
  cases tok with
  | indent l =>
    simp only [checkerStep, Option.some.injEq] at h
    subst h
    simp [Token.isOutdentT, Token.isIndentT]
  | outdent l =>
    cases st with
    | nil => exact Option.noConfusion h
    | cons f rest =>
      simp only [checkerStep, Option.some.injEq] at h
      subst h
      simp [Token.isOutdentT, Token.isIndentT]
  | mapKey l v =>
    cases st with
    | nil => exact Option.noConfusion h
    | cons f rest =>
      simp only [checkerStep] at h
      by_cases hf : f = some SectionType.list
      · rw [if_pos hf] at h; exact Option.noConfusion h
      · rw [if_neg hf] at h
        cases h
        simp [Token.isOutdentT, Token.isIndentT]
  | listItem l =>
    cases st with
    | nil => exact Option.noConfusion h
    | cons f rest =>
      simp only [checkerStep] at h
      by_cases hf : f = some SectionType.map
      · rw [if_pos hf] at h; exact Option.noConfusion h
      · rw [if_neg hf] at h
        cases h
        simp [Token.isOutdentT, Token.isIndentT]
  | newline l =>
    simp only [checkerStep, Option.some.injEq] at h
    subst h
    simp [Token.isOutdentT, Token.isIndentT]
  | comment l s =>
    simp only [checkerStep, Option.some.injEq] at h
    subst h
    simp [Token.isOutdentT, Token.isIndentT]
  | value l v =>
    simp only [checkerStep, Option.some.injEq] at h
    subst h
    simp [Token.isOutdentT, Token.isIndentT]
  | multilineValue l i v =>
    simp only [checkerStep, Option.some.injEq] at h
    subst h
    simp [Token.isOutdentT, Token.isIndentT]
  | multilineHint l s =>
    simp only [checkerStep, Option.some.injEq] at h
    subst h
    simp [Token.isOutdentT, Token.isIndentT]
  | noValue l =>
    simp only [checkerStep, Option.some.injEq] at h
    subst h
    simp [Token.isOutdentT, Token.isIndentT]

/-- A fuelled parser run from a state satisfying the joint invariant never
panics, its output stream passes the section-kind checker, the checker
balance accounts for indents and outdents, and a completed run ends with a
single frame left on the checker stack. -/
theorem runParserOK : ∀ (fuel : Nat) (p : Parser), JInv p →
    (runParser fuel p).2.1 ≠ .panicked ∧
    ∃ st2, checkerRun p.stack (runParser fuel p).1 = some st2 ∧
      st2.length + countO (runParser fuel p).1 =
        p.stack.length + countI (runParser fuel p).1 ∧
      ((runParser fuel p).2.1 = .completed → st2.length = 1)
  | 0, p, hJ => by
    simp only [runParser]
    exact ⟨by simp, p.stack, rfl, by simp [countI, countO], by simp⟩
  | fuel + 1, p, hJ => by
    have hstep := pstep p hJ
    cases hps : parserNext p with
    | panic => rw [hps] at hstep; exact hstep.elim
    | done p2 =>
      rw [hps] at hstep
      obtain ⟨hlen, h2, h3⟩ := hstep
      simp only [runParser, hps]
      exact ⟨by simp, p.stack, rfl, by simp [countI, countO], fun h4 => hlen⟩
    | error e p2 =>
      simp only [runParser, hps]
      exact ⟨by simp, p.stack, rfl, by simp [countI, countO], by simp⟩
    | yield tok p2 =>
      rw [hps] at hstep
      obtain ⟨hJ2, hchk⟩ := hstep
      obtain ⟨hnp, st2, hrun, hcount, hcomp⟩ := runParserOK fuel p2 hJ2
      have hdelta := checkerStep_len hchk
      simp only [runParser, hps]
      refine ⟨hnp, st2, ?_, ?_, hcomp⟩
      · show checkerRun p.stack (tok :: (runParser fuel p2).1) = some st2
        simp only [checkerRun, hchk]
        exact hrun
      · show st2.length + countO (tok :: (runParser fuel p2).1) =
          p.stack.length + countI (tok :: (runParser fuel p2).1)
        simp only [countI, countO, List.countP_cons] at hcount ⊢
        by_cases hi : Token.isIndentT tok <;> by_cases ho : Token.isOutdentT tok <;>
          simp [hi, ho] at hdelta ⊢ <;> omega

/-- The section-kind checker distributes over list append. -/
theorem checkerRun_append (st : List (Option SectionType)) (xs ys : List Token) :
    checkerRun st (xs ++ ys) =
      match checkerRun st xs with
      | none => none
      | some s2 => checkerRun s2 ys := by
  induction xs generalizing st with
  | nil => rfl
  | cons tok xs ih =>
    simp only [List.cons_append, checkerRun]
    cases checkerStep st tok with
    | none => rfl
    | some st3 => exact ih st3

/-- Under a non-negative outdent balance, a checker run over `g ++ f :: r`
never pops below `f`, ends with the same `r`, changes the depth by the
indent/outdent difference, and can never replace a committed section kind
`f = some k` by a different one. -/
theorem checkerRun_frame : ∀ (m : List Token) (g : List (Option SectionType))
    (f : Option SectionType) (r st3 : List (Option SectionType)),
    checkerRun (g ++ f :: r) m = some st3 →
    (∀ v w, m = v ++ w → countO v ≤ countI v + g.length) →
    ∃ g2 f2, st3 = g2 ++ f2 :: r ∧
      g2.length + countO m = g.length + countI m ∧
      (∀ k, f = some k → f2 = some k)
  | [], g, f, r, st3, h, hbal => by
    refine ⟨g, f, ?_, by simp [countI, countO], fun k hk => hk⟩
    simpa [checkerRun] using h.symm
  | tok :: m, g, f, r, st3, h, hbal => by
    cases tok with
    | indent l =>
      simp only [checkerRun, checkerStep] at h
      obtain ⟨g2, f2, hst, hcnt, hpres⟩ :=
        checkerRun_frame m (none :: g) f r st3 h (fun v w hvw => by
          have := hbal (Token.indent l :: v) w (by simp [hvw])
          simp [countI, countO, List.countP_cons, Token.isIndentT,
            Token.isOutdentT, List.length_cons] at this ⊢
          omega)
      refine ⟨g2, f2, hst, ?_, hpres⟩
      simp [countI, countO, List.countP_cons, Token.isIndentT,
        Token.isOutdentT, List.length_cons] at hcnt ⊢
      omega
    | outdent l =>
      cases g with
      | nil =>
        have := hbal [Token.outdent l] m rfl
        simp [countI, countO, Token.isIndentT, Token.isOutdentT] at this
      | cons h0 g =>
        simp only [List.cons_append, checkerRun, checkerStep] at h
        obtain ⟨g2, f2, hst, hcnt, hpres⟩ :=
          checkerRun_frame m g f r st3 h (fun v w hvw => by
            have := hbal (Token.outdent l :: v) w (by simp [hvw])
            simp [countI, countO, List.countP_cons, Token.isIndentT,
              Token.isOutdentT, List.length_cons] at this ⊢
            omega)
        refine ⟨g2, f2, hst, ?_, hpres⟩
        simp [countI, countO, List.countP_cons, Token.isIndentT,
          Token.isOutdentT, List.length_cons] at hcnt ⊢
        omega
    | mapKey l v =>
      cases g with
      | nil =>
        simp only [List.nil_append, checkerRun, checkerStep] at h
        by_cases hf : f = some SectionType.list
        · rw [if_pos hf] at h; exact Option.noConfusion h
        · rw [if_neg hf] at h
          obtain ⟨g2, f2, hst, hcnt, hpres⟩ :=
            checkerRun_frame m [] (some .map) r st3 h (fun v2 w hvw => by
              have := hbal (Token.mapKey l v :: v2) w (by simp [hvw])
              simp [countI, countO, List.countP_cons, Token.isIndentT,
                Token.isOutdentT] at this ⊢
              omega)
          refine ⟨g2, f2, hst, ?_, ?_⟩
          · simp [countI, countO, List.countP_cons, Token.isIndentT,
              Token.isOutdentT] at hcnt ⊢
            omega
          · intro k hk
            cases k with
            | list => exact absurd hk hf
            | map => exact hpres SectionType.map rfl
      | cons h0 g =>
        simp only [List.cons_append, checkerRun, checkerStep] at h
        by_cases hf : h0 = some SectionType.list
        · rw [if_pos hf] at h; exact Option.noConfusion h
        · rw [if_neg hf] at h
          obtain ⟨g2, f2, hst, hcnt, hpres⟩ :=
            checkerRun_frame m (some .map :: g) f r st3 h (fun v2 w hvw => by
              have := hbal (Token.mapKey l v :: v2) w (by simp [hvw])
              simp [countI, countO, List.countP_cons, Token.isIndentT,
                Token.isOutdentT, List.length_cons] at this ⊢
              omega)
          refine ⟨g2, f2, hst, ?_, hpres⟩
          simp [countI, countO, List.countP_cons, Token.isIndentT,
            Token.isOutdentT, List.length_cons] at hcnt ⊢
          omega
    | listItem l =>
      cases g with
      | nil =>
        simp only [List.nil_append, checkerRun, checkerStep] at h
        by_cases hf : f = some SectionType.map
        · rw [if_pos hf] at h; exact Option.noConfusion h
        · rw [if_neg hf] at h
          obtain ⟨g2, f2, hst, hcnt, hpres⟩ :=
            checkerRun_frame m [] (some .list) r st3 h (fun v2 w hvw => by
              have := hbal (Token.listItem l :: v2) w (by simp [hvw])
              simp [countI, countO, List.countP_cons, Token.isIndentT,
                Token.isOutdentT] at this ⊢
              omega)
          refine ⟨g2, f2, hst, ?_, ?_⟩
          · simp [countI, countO, List.countP_cons, Token.isIndentT,
              Token.isOutdentT] at hcnt ⊢
            omega
          · intro k hk
            cases k with
            | map => exact absurd hk hf
            | list => exact hpres SectionType.list rfl
      | cons h0 g =>
        simp only [List.cons_append, checkerRun, checkerStep] at h
        by_cases hf : h0 = some SectionType.map
        · rw [if_pos hf] at h; exact Option.noConfusion h
        · rw [if_neg hf] at h
          obtain ⟨g2, f2, hst, hcnt, hpres⟩ :=
            checkerRun_frame m (some .list :: g) f r st3 h (fun v2 w hvw => by
              have := hbal (Token.listItem l :: v2) w (by simp [hvw])
              simp [countI, countO, List.countP_cons, Token.isIndentT,
                Token.isOutdentT, List.length_cons] at this ⊢
              omega)
          refine ⟨g2, f2, hst, ?_, hpres⟩
          simp [countI, countO, List.countP_cons, Token.isIndentT,
            Token.isOutdentT, List.length_cons] at hcnt ⊢
          omega
    | newline l =>
      simp only [checkerRun, checkerStep] at h
      obtain ⟨g2, f2, hst, hcnt, hpres⟩ :=
        checkerRun_frame m g f r st3 h (fun v w hvw => by
          have := hbal (Token.newline l :: v) w (by simp [hvw])
          simp [countI, countO, List.countP_cons, Token.isIndentT,
            Token.isOutdentT] at this ⊢
          omega)
      refine ⟨g2, f2, hst, ?_, hpres⟩
      simp [countI, countO, List.countP_cons, Token.isIndentT,
        Token.isOutdentT] at hcnt ⊢
      omega
    | comment l s =>
      simp only [checkerRun, checkerStep] at h
      obtain ⟨g2, f2, hst, hcnt, hpres⟩ :=
        checkerRun_frame m g f r st3 h (fun v w hvw => by
          have := hbal (Token.comment l s :: v) w (by simp [hvw])
          simp [countI, countO, List.countP_cons, Token.isIndentT,
            Token.isOutdentT] at this ⊢
          omega)
      refine ⟨g2, f2, hst, ?_, hpres⟩
      simp [countI, countO, List.countP_cons, Token.isIndentT,
        Token.isOutdentT] at hcnt ⊢
      omega
    | value l v =>
      simp only [checkerRun, checkerStep] at h
      obtain ⟨g2, f2, hst, hcnt, hpres⟩ :=
        checkerRun_frame m g f r st3 h (fun v2 w hvw => by
          have := hbal (Token.value l v :: v2) w (by simp [hvw])
          simp [countI, countO, List.countP_cons, Token.isIndentT,
            Token.isOutdentT] at this ⊢
          omega)
      refine ⟨g2, f2, hst, ?_, hpres⟩
      simp [countI, countO, List.countP_cons, Token.isIndentT,
        Token.isOutdentT] at hcnt ⊢
      omega
    | multilineValue l i v =>
      simp only [checkerRun, checkerStep] at h
      obtain ⟨g2, f2, hst, hcnt, hpres⟩ :=
        checkerRun_frame m g f r st3 h (fun v2 w hvw => by
          have := hbal (Token.multilineValue l i v :: v2) w (by simp [hvw])
          simp [countI, countO, List.countP_cons, Token.isIndentT,
            Token.isOutdentT] at this ⊢
          omega)
      refine ⟨g2, f2, hst, ?_, hpres⟩
      simp [countI, countO, List.countP_cons, Token.isIndentT,
        Token.isOutdentT] at hcnt ⊢
      omega
    | multilineHint l s =>
      simp only [checkerRun, checkerStep] at h
      obtain ⟨g2, f2, hst, hcnt, hpres⟩ :=
        checkerRun_frame m g f r st3 h (fun v2 w hvw => by
          have := hbal (Token.multilineHint l s :: v2) w (by simp [hvw])
          simp [countI, countO, List.countP_cons, Token.isIndentT,
            Token.isOutdentT] at this ⊢
          omega)
      refine ⟨g2, f2, hst, ?_, hpres⟩
      simp [countI, countO, List.countP_cons, Token.isIndentT,
        Token.isOutdentT] at hcnt ⊢
      omega
    | noValue l =>
      simp only [checkerRun, checkerStep] at h
      obtain ⟨g2, f2, hst, hcnt, hpres⟩ :=
        checkerRun_frame m g f r st3 h (fun v w hvw => by
          have := hbal (Token.noValue l :: v) w (by simp [hvw])
          simp [countI, countO, List.countP_cons, Token.isIndentT,
            Token.isOutdentT] at this ⊢
          omega)
      refine ⟨g2, f2, hst, ?_, hpres⟩
      simp [countI, countO, List.countP_cons, Token.isIndentT,
        Token.isOutdentT] at hcnt ⊢
      omega

/-- The initial parser state satisfies the joint invariant. -/
theorem JInv_parse (input : List Nat) : JInv (parse input) := by
  refine ⟨⟨by simp [tokenize, parse], by simp [tokenize, parse], ?_, ?_⟩,
    rfl, rfl, ?_, ?_, ?_, ?_⟩
  · intro ci h; exact Option.noConfusion h
  · intro h; rfl
  · intro x hx; exact Option.noConfusion hx
  · intro l hl; exact Option.noConfusion hl
  · intro l hl; exact Option.noConfusion hl
  · intro h1 h2 h3; exact ⟨.inl rfl, .inl rfl⟩

/-- A checker-accepted stream cannot contain a `MapKey` and a later
`ListItem` inside the same frame (separated by a balanced segment that
never outdents below the frame). -/
theorem checker_no_mix_kv (st st3 : List (Option SectionType))
    (a m b : List Token) (k : Nat) (v : List Char) (l2 : Nat)
    (h : checkerRun st (a ++ Token.mapKey k v :: (m ++ Token.listItem l2 :: b)) = some st3)
    (hbal : ∀ x y, m = x ++ y → countO x ≤ countI x)
    (heq : countI m = countO m) : False := by
  rw [checkerRun_append] at h
  cases hca : checkerRun st a with
  | none => rw [hca] at h; exact Option.noConfusion h
  | some st1 =>
    rw [hca] at h
    cases st1 with
    | nil =>
      simp only [checkerRun, checkerStep] at h
      exact Option.noConfusion h
    | cons f r =>
      simp only [checkerRun, checkerStep] at h
      by_cases hf : f = some SectionType.list
      · rw [if_pos hf] at h; exact Option.noConfusion h
      · simp only [if_neg hf] at h
        rw [checkerRun_append] at h
        cases hcm : checkerRun (some SectionType.map :: r) m with
        | none => rw [hcm] at h; exact Option.noConfusion h
        | some st2 =>
          rw [hcm] at h
          obtain ⟨g2, f2, hst, hcnt, hpres⟩ :=
            checkerRun_frame m [] (some SectionType.map) r st2 hcm
              (fun x y hxy => by simpa using hbal x y hxy)
          have hg2 : g2 = [] := by
            have : g2.length = 0 := by
              simp only [List.length_nil] at hcnt
              omega
            exact List.eq_nil_of_length_eq_zero this
          subst hg2
          have hf2 : f2 = some SectionType.map := hpres SectionType.map rfl
          subst hf2
          simp only [List.nil_append] at hst
          subst hst
          simp only [checkerRun, checkerStep, if_pos rfl] at h
          exact Option.noConfusion h

/-- A checker-accepted stream cannot contain a `ListItem` and a later
`MapKey` inside the same frame. -/
theorem checker_no_mix_vk (st st3 : List (Option SectionType))
    (a m b : List Token) (k : Nat) (v : List Char) (l2 : Nat)
    (h : checkerRun st (a ++ Token.listItem l2 :: (m ++ Token.mapKey k v :: b)) = some st3)
    (hbal : ∀ x y, m = x ++ y → countO x ≤ countI x)
    (heq : countI m = countO m) : False := by
  rw [checkerRun_append] at h
  cases hca : checkerRun st a with
  | none => rw [hca] at h; exact Option.noConfusion h
  | some st1 =>
    rw [hca] at h
    cases st1 with
    | nil =>
      simp only [checkerRun, checkerStep] at h
      exact Option.noConfusion h
    | cons f r =>
      simp only [checkerRun, checkerStep] at h
      by_cases hf : f = some SectionType.map
      · rw [if_pos hf] at h; exact Option.noConfusion h
      · simp only [if_neg hf] at h
        rw [checkerRun_append] at h
        cases hcm : checkerRun (some SectionType.list :: r) m with
        | none => rw [hcm] at h; exact Option.noConfusion h
        | some st2 =>
          rw [hcm] at h
          obtain ⟨g2, f2, hst, hcnt, hpres⟩ :=
            checkerRun_frame m [] (some SectionType.list) r st2 hcm
              (fun x y hxy => by simpa using hbal x y hxy)
          have hg2 : g2 = [] := by
            have : g2.length = 0 := by
              simp only [List.length_nil] at hcnt
              omega
            exact List.eq_nil_of_length_eq_zero this
          subst hg2
          have hf2 : f2 = some SectionType.list := hpres SectionType.list rfl
          subst hf2
          simp only [List.nil_append] at hst
          subst hst
          simp only [checkerRun, checkerStep, if_pos rfl] at h
          exact Option.noConfusion h

/-- On empty input with no stashed indent, one tokenizer step pops the
indent stack (emitting an `Outdent`) or ends the stream at the root. -/
theorem tokenizerNext_exhausted (stk : List (List Nat)) (ei ev em : Bool) (ln : Nat) :
    tokenizerNext ⟨[], stk, none, ei, ev, em, ln⟩ =
      if stk.length > 1 then
        .yield (.ok (.outdent ln)) ⟨[], stk.tail, none, ei, ev, em, ln⟩
      else .done ⟨[], stk, none, ei, ev, em, ln⟩ := rfl

/-- On exhausted input the tokenizer emits one `Outdent` for each
indent-stack frame above the root and then completes. -/
theorem runTokenizer_exhausted : ∀ (n : Nat) (stk : List (List Nat))
    (ei ev em : Bool) (ln : Nat), stk.length = n + 1 →
    (runTokenizer (n + 1) ⟨[], stk, none, ei, ev, em, ln⟩).1 =
      List.replicate n (Except.ok (Token.outdent ln)) ∧
    (runTokenizer (n + 1) ⟨[], stk, none, ei, ev, em, ln⟩).2.1 = .completed
  | 0, stk, ei, ev, em, ln, hlen => by
    simp only [runTokenizer, tokenizerNext_exhausted]
    rw [if_neg (by omega)]
    exact ⟨rfl, rfl⟩
  | n + 1, stk, ei, ev, em, ln, hlen => by
    obtain ⟨hout, hcomp⟩ := runTokenizer_exhausted n stk.tail ei ev em ln (by
      cases stk with
      | nil => simp at hlen
      | cons s0 srest => simpa using hlen)
    simp only [runTokenizer, tokenizerNext_exhausted]
    rw [if_pos (by omega)]
    refine ⟨?_, hcomp⟩
    show Except.ok (Token.outdent ln) ::
      (runTokenizer (n + 1) ⟨[], stk.tail, none, ei, ev, em, ln⟩).1 = _
    rw [List.replicate_succ, hout]

/-- Every error step produced by the parser body leaves the fuse set. -/
theorem parserProcess_error_errored {p : Parser} {x : Option Token}
    {e : SyntaxError} {p2 : Parser}
    (h : parserProcess p x = .error e p2) : p2.errored = true := by
  unfold parserProcess at h
  repeat' split at h
  all_goals first
    | exact PStep.noConfusion h
    | (cases h; rfl)

/-- Every error step produced by the parser leaves the fuse set. -/
theorem parserNext_error_errored {p : Parser} {e : SyntaxError} {p2 : Parser}
    (h : parserNext p = .error e p2) : p2.errored = true := by
  unfold parserNext at h
  repeat' split at h
  all_goals first
    | exact PStep.noConfusion h
    | (cases h; rfl)
    | exact parserProcess_error_errored h

/-- Once the fuse is set the parser only returns `None`. -/
theorem parserNext_errored (p : Parser) (h : p.errored = true) :
    parserNext p = .done p := by
  unfold parserNext
  rw [if_pos h]

/-- A completed or failed run from an invariant state ends in a state on
which every further call returns `None`; a completed run has emptied the
section stack. -/
theorem runParserEnd : ∀ (fuel : Nat) (p : Parser), JInv p →
    ((runParser fuel p).2.1 = .completed ∨
      (∃ e, (runParser fuel p).2.1 = .failed e)) →
    parserNext (runParser fuel p).2.2 = .done (runParser fuel p).2.2 ∧
    ((runParser fuel p).2.1 = .completed → (runParser fuel p).2.2.stack = [])
  | 0, p, hJ, hend => by
    simp only [runParser] at hend
    rcases hend with h | ⟨e, h⟩ <;> exact RunEnd.noConfusion h
  | fuel + 1, p, hJ, hend => by
    have hstep := pstep p hJ
    cases hps : parserNext p with
    | panic => rw [hps] at hstep; exact hstep.elim
    | done p2 =>
      rw [hps] at hstep
      simp only [runParser, hps]
      exact ⟨hstep.2.2, fun h2 => hstep.2.1⟩
    | error e p2 =>
      rw [hps] at hstep
      simp only [runParser, hps]
      exact ⟨parserNext_errored p2 hstep, fun h2 => RunEnd.noConfusion h2⟩
    | yield tok p2 =>
      rw [hps] at hstep
      simp only [runParser, hps] at hend ⊢
      exact runParserEnd fuel p2 hstep.1 hend

/-- C1: a parse run that consumes the whole stream without error emits
exactly as many `Outdent` tokens as `Indent` tokens; and on exhausted
input the tokenizer emits one `Outdent` per indent-stack frame above the
root and then returns `None`. -/
theorem claim_c1 :
    (∀ (input : List Nat) (fuel : Nat),
      (runParser fuel (parse input)).2.1 = RunEnd.completed →
      countI (runParser fuel (parse input)).1 =
        countO (runParser fuel (parse input)).1) ∧
    (∀ (n : Nat) (stk : List (List Nat)) (ei ev em : Bool) (ln : Nat),
      stk.length = n + 1 →
      (runTokenizer (n + 1) ⟨[], stk, none, ei, ev, em, ln⟩).1 =
        List.replicate n (Except.ok (Token.outdent ln)) ∧
      (runTokenizer (n + 1) ⟨[], stk, none, ei, ev, em, ln⟩).2.1 =
        RunEnd.completed) := by
  constructor
  · intro input fuel hc
    obtain ⟨hnp, st2, hrun, hcnt, hcomp⟩ :=
      runParserOK fuel (parse input) (JInv_parse input)
    have h1 : st2.length = 1 := hcomp hc
    have h2 : (parse input).stack.length = 1 := rfl
    omega
  · exact fun n stk ei ev em ln h => runTokenizer_exhausted n stk ei ev em ln h

theorem claim_c1_witness :
    ((runParser 8 (parse (ascii "a\n b"))).2.1 = RunEnd.completed ∧
      countI (runParser 8 (parse (ascii "a\n b"))).1 =
        countO (runParser 8 (parse (ascii "a\n b"))).1) ∧
    ([[32], [32, 32], []] : List (List Nat)).length = 2 + 1 ∧
    (runTokenizer 3 ⟨[], [[32], [32, 32], []], none, false, false, false, 4⟩).1 =
      List.replicate 2 (Except.ok (Token.outdent 4)) :=
  ⟨⟨by decide, claim_c1.1 (ascii "a\n b") 8 (by decide)⟩,
    by decide,
    (claim_c1.2 2 [[32], [32, 32], []] false false false 4 (by decide)).1⟩

/-- C2: with no pending value, a `MapKey` on a `List` frame errors with
"expected list item" at the key line, a `ListItem` on a `Map` frame errors
with "expected map key" at the item line, and consequently the output of a
parse run never contains a `MapKey` and a `ListItem` in the same frame
(separated by a balanced segment that never outdents below the frame). -/
theorem claim_c2 :
    (∀ (p : Parser) (lno : Nat) (v : List Char) (rest : List (Option SectionType)),
      p.multilineHint = none → p.needsValue = none →
      p.stack = some SectionType.list :: rest →
      parserProcess p (some (Token.mapKey lno v)) =
        .error ⟨lno, "expected list item"⟩ { p with errored := true }) ∧
    (∀ (p : Parser) (lno : Nat) (rest : List (Option SectionType)),
      p.multilineHint = none → p.needsValue = none →
      p.stack = some SectionType.map :: rest →
      parserProcess p (some (Token.listItem lno)) =
        .error ⟨lno, "expected map key"⟩ { p with errored := true }) ∧
    (∀ (input : List Nat) (fuel : Nat) (a m b : List Token) (t1 t2 : Token),
      (runParser fuel (parse input)).1 = a ++ t1 :: (m ++ t2 :: b) →
      (∀ x y, m = x ++ y → countO x ≤ countI x) →
      countI m = countO m →
      ¬((∃ k v, t1 = Token.mapKey k v) ∧ (∃ l, t2 = Token.listItem l)) ∧
      ¬((∃ l, t1 = Token.listItem l) ∧ (∃ k v, t2 = Token.mapKey k v))) := by
  refine ⟨?_, ?_, ?_⟩
  · intro p lno v rest hmh hnv hstk
    obtain ⟨tk, pk, mh, nv, er, stk⟩ := p
    simp only at hmh hnv hstk
    subst hmh; subst hnv; subst hstk
    simp only [parserProcess]
    rw [if_pos trivial]
  · intro p lno rest hmh hnv hstk
    obtain ⟨tk, pk, mh, nv, er, stk⟩ := p
    simp only at hmh hnv hstk
    subst hmh; subst hnv; subst hstk
    simp only [parserProcess]
    rw [if_pos trivial]
  · intro input fuel a m b t1 t2 hsplit hbal heq
    obtain ⟨hnp, st2, hrun, hcnt, hcomp⟩ :=
      runParserOK fuel (parse input) (JInv_parse input)
    rw [hsplit] at hrun
    constructor
    · rintro ⟨⟨k, v, rfl⟩, ⟨l, rfl⟩⟩
      exact checker_no_mix_kv (parse input).stack st2 a m b k v l hrun hbal heq
    · rintro ⟨⟨l, rfl⟩, ⟨k, v, rfl⟩⟩
      exact checker_no_mix_vk (parse input).stack st2 a m b k v l hrun hbal heq

theorem claim_c2_witness :
    (parserProcess ⟨tokenize [], none, none, none, false,
        [some SectionType.list, none]⟩ (some (Token.mapKey 3 ['a'])) =
      .error ⟨3, "expected list item"⟩
        ⟨tokenize [], none, none, none, true, [some SectionType.list, none]⟩) ∧
    (parserProcess ⟨tokenize [], none, none, none, false,
        [some SectionType.map, none]⟩ (some (Token.listItem 4)) =
      .error ⟨4, "expected map key"⟩
        ⟨tokenize [], none, none, none, true, [some SectionType.map, none]⟩) ∧
    ((runParser 8 (parse (ascii "a\n b"))).1 =
      [] ++ Token.mapKey 1 ['a'] ::
        ([Token.newline 1] ++ Token.indent 2 ::
          [Token.mapKey 2 ['b'], Token.noValue 2, Token.outdent 2]) ∧
     ¬((∃ k v, Token.mapKey 1 ['a'] = Token.mapKey k v) ∧
        (∃ l, Token.indent 2 = Token.listItem l))) :=
  ⟨claim_c2.1 ⟨tokenize [], none, none, none, false,
      [some SectionType.list, none]⟩ 3 ['a'] [none] rfl rfl rfl,
   claim_c2.2.1 ⟨tokenize [], none, none, none, false,
      [some SectionType.map, none]⟩ 4 [none] rfl rfl rfl,
   by decide,
   (claim_c2.2.2 (ascii "a\n b") 8 [] [Token.newline 1]
      [Token.mapKey 2 ['b'], Token.noValue 2, Token.outdent 2]
      (Token.mapKey 1 ['a']) (Token.indent 2) (by decide)
      (by
        intro x y hxy
        have : x.length ≤ 1 := by
          have := congrArg List.length hxy
          simp at this
          omega
        interval_cases hx : x.length
        · cases x with
          | nil => decide
          | cons c cs => simp at hx
        · cases x with
          | nil => simp at hx
          | cons c cs =>
            cases cs with
            | nil =>
              have : c = Token.newline 1 := by
                have h2 := congrArg (fun l => l.head?) hxy
                simp at h2
                exact h2.symm
              subst this
              decide
            | cons d ds => simp at hx) (by decide)).1⟩

/-- C3 (amended): when a value is pending and the fetched token (ignoring
newlines and comments) is neither `Value`, `MultilineHint` nor `Indent` —
including end of stream — the parser emits a synthetic `NoValue` at the
pending line and stores the fetched item in the peek slot; the following
call processes the stored item through the normal token handling (so it is
yielded unless it conflicts with the section kind); `NoValue` is never
produced by the tokenizer; and a bare `key` line parses as `MapKey`
followed by `NoValue`. -/
theorem claim_c3 :
    (∀ (p : Parser) (lno : Nat) (tok : Token),
      p.multilineHint = none → p.needsValue = some lno →
      Token.stashes tok = true →
      parserProcess p (some tok) =
        .yield (.noValue lno)
          { p with needsValue := none, peek := some (some tok) }) ∧
    (∀ (p : Parser) (lno : Nat),
      p.multilineHint = none → p.needsValue = some lno →
      parserProcess p none =
        .yield (.noValue lno) { p with needsValue := none, peek := some none }) ∧
    (∀ (p : Parser) (x : Option Token),
      p.errored = false → p.peek = some x →
      parserNext p = parserProcess { p with peek := none } x) ∧
    (∀ (t : Tokenizer) (r : Except SyntaxError Token) (t2 : Tokenizer),
      TInv t → tokenizerNext t = .yield r t2 →
      ∀ l, r ≠ .ok (.noValue l)) ∧
    ((runParser 4 (parse (ascii "key"))).1 =
      [Token.mapKey 1 ['k', 'e', 'y'], Token.noValue 1] ∧
     (runParser 4 (parse (ascii "key"))).2.1 = RunEnd.completed) := by
  refine ⟨?_, ?_, ?_, ?_, by decide⟩
  · intro p lno tok hmh hnv hst
    obtain ⟨tk, pk, mh, nv, er, stk⟩ := p
    simp only at hmh hnv
    subst hmh; subst hnv
    cases tok <;> first
      | exact Bool.noConfusion hst
      | rfl
  · intro p lno hmh hnv
    obtain ⟨tk, pk, mh, nv, er, stk⟩ := p
    simp only at hmh hnv
    subst hmh; subst hnv
    rfl
  · intro p x herr hpk
    obtain ⟨tk, pk, mh, nv, er, stk⟩ := p
    simp only at herr hpk
    subst herr; subst hpk
    rfl
  · intro t r t2 hTI ht l hr
    have hstep := tokStep t hTI
    rw [ht] at hstep
    subst hr
    exact hstep.2

/-- C3 counterexample: for the input `=` newline `b`, the fetched `MapKey`
is stashed after the synthetic `NoValue`, but the following call yields
the error "expected list item" rather than the stored token. -/
theorem claim_c3_counterexample :
    (runParser 3 (parse (ascii "=\nb"))).1 =
      [Token.listItem 1, Token.newline 1, Token.noValue 1] ∧
    (runParser 3 (parse (ascii "=\nb"))).2.2.peek =
      some (some (Token.mapKey 2 ['b'])) ∧
    (runParser 5 (parse (ascii "=\nb"))).1 =
      [Token.listItem 1, Token.newline 1, Token.noValue 1] ∧
    (runParser 5 (parse (ascii "=\nb"))).2.1 =
      RunEnd.failed ⟨2, "expected list item"⟩ := by decide

theorem claim_c3_witness :
    (Token.stashes (Token.outdent 2) = true ∧
      parserProcess ⟨tokenize [], none, none, some 1, false, [none]⟩
          (some (Token.outdent 2)) =
        .yield (.noValue 1)
          ⟨tokenize [], some (some (Token.outdent 2)), none, none, false, [none]⟩) ∧
    parserProcess ⟨tokenize [], none, none, some 1, false, [none]⟩ none =
      .yield (.noValue 1) ⟨tokenize [], some none, none, none, false, [none]⟩ ∧
    parserNext ⟨tokenize [], some (some (Token.outdent 2)), none, none, false, [none]⟩ =
      parserProcess ⟨tokenize [], none, none, none, false, [none]⟩
        (some (Token.outdent 2)) ∧
    (TInv (tokenize [97]) ∧
      (Except.ok (Token.mapKey 1 ['a']) : Except SyntaxError Token) ≠
        Except.ok (Token.noValue 5)) :=
  ⟨⟨by decide, claim_c3.1 ⟨tokenize [], none, none, some 1, false, [none]⟩ 1
      (Token.outdent 2) rfl rfl (by decide)⟩,
   claim_c3.2.1 ⟨tokenize [], none, none, some 1, false, [none]⟩ 1 rfl rfl,
   claim_c3.2.2.1 ⟨tokenize [], some (some (Token.outdent 2)), none, none, false, [none]⟩
      (some (Token.outdent 2)) rfl rfl,
   ⟨⟨by decide, by decide, fun ci h => Option.noConfusion h, fun h => rfl⟩,
    claim_c3.2.2.2.1 (tokenize [97]) (.ok (.mapKey 1 ['a']))
      ⟨[], [[]], none, false, true, false, 1⟩
      ⟨by decide, by decide, fun ci h => Option.noConfusion h, fun h => rfl⟩
      (by decide) 5⟩⟩

/-- C8: any error yielded by the parser sets the fuse, after which every
call returns `None` (the run yields nothing more); the tokenizer, in
contrast, continues after yielding an error item, as on the invalid UTF-8
byte 0xff followed by further content. -/
theorem claim_c8 :
    (∀ (p : Parser) (e : SyntaxError) (p2 : Parser),
      parserNext p = .error e p2 →
      p2.errored = true ∧ parserNext p2 = .done p2 ∧
      ∀ (fuel : Nat), (runParser fuel p2).1 = []) ∧
    ((runTokenizer 4 (tokenize [255, 10, 97])).1 =
      [Except.error ⟨1, "invalid UTF-8"⟩, Except.ok (Token.newline 1),
        Except.ok (Token.mapKey 2 ['a'])] ∧
     (runTokenizer 4 (tokenize [255, 10, 97])).2.1 = RunEnd.completed) := by
  refine ⟨?_, by decide⟩
  intro p e p2 h
  have herr := parserNext_error_errored h
  refine ⟨herr, parserNext_errored p2 herr, ?_⟩
  intro fuel
  cases fuel with
  | zero => rfl
  | succ n => simp only [runParser, parserNext_errored p2 herr]

theorem claim_c8_witness :
    parserNext (runParser 3 (parse (ascii "=\nb"))).2.2 =
      .error ⟨2, "expected list item"⟩
        { (runParser 3 (parse (ascii "=\nb"))).2.2 with
            peek := none, errored := true } ∧
    ({ (runParser 3 (parse (ascii "=\nb"))).2.2 with
        peek := none, errored := true } : Parser).errored = true ∧
    (runParser 9 { (runParser 3 (parse (ascii "=\nb"))).2.2 with
        peek := none, errored := true }).1 = [] :=
  have h : parserNext (runParser 3 (parse (ascii "=\nb"))).2.2 =
      .error ⟨2, "expected list item"⟩
        { (runParser 3 (parse (ascii "=\nb"))).2.2 with
            peek := none, errored := true } := by decide
  ⟨h, (claim_c8.1 _ _ _ h).1, (claim_c8.1 _ _ _ h).2.2 9⟩

/-- C10: a parser run from the initial state never panics (in particular
the section-stack `unwrap` on `MapKey` and `ListItem` never fails — the
stack is non-empty in every invariant state); the iterator is fused: after
completing or yielding an error every call returns `None`; and a completed
run has already popped the stack empty, so further calls pop an empty
stack harmlessly. -/
theorem claim_c10 :
    (∀ (input : List Nat) (fuel : Nat),
      (runParser fuel (parse input)).2.1 ≠ RunEnd.panicked) ∧
    (∀ (p : Parser), JInv p → p.stack ≠ []) ∧
    (∀ (input : List Nat) (fuel : Nat),
      ((runParser fuel (parse input)).2.1 = RunEnd.completed ∨
        (∃ e, (runParser fuel (parse input)).2.1 = RunEnd.failed e)) →
      parserNext (runParser fuel (parse input)).2.2 =
        .done (runParser fuel (parse input)).2.2) ∧
    (∀ (input : List Nat) (fuel : Nat),
      (runParser fuel (parse input)).2.1 = RunEnd.completed →
      (runParser fuel (parse input)).2.2.stack = []) := by
  refine ⟨?_, ?_, ?_, ?_⟩
  · intro input fuel
    exact (runParserOK fuel (parse input) (JInv_parse input)).1
  · intro p hJ hnil
    obtain ⟨⟨hne, h1, h2, h3⟩, h4, hlen, h5⟩ := hJ
    rw [hnil] at hlen
    simp only [List.length_nil] at hlen
    have h6 : p.tokenizer.indentStack.length = 0 := by omega
    exact hne (List.eq_nil_of_length_eq_zero h6)
  · intro input fuel hend
    exact (runParserEnd fuel (parse input) (JInv_parse input) hend).1
  · intro input fuel hc
    exact (runParserEnd fuel (parse input) (JInv_parse input) (.inl hc)).2 hc

theorem claim_c10_witness :
    (runParser 4 (parse (ascii "key"))).2.1 ≠ RunEnd.panicked ∧
    JInv (parse (ascii "key")) ∧ (parse (ascii "key")).stack ≠ [] ∧
    (runParser 4 (parse (ascii "key"))).2.1 = RunEnd.completed ∧
    parserNext (runParser 4 (parse (ascii "key"))).2.2 =
      .done (runParser 4 (parse (ascii "key"))).2.2 ∧
    (runParser 4 (parse (ascii "key"))).2.2.stack = [] :=
  ⟨claim_c10.1 (ascii "key") 4,
   JInv_parse (ascii "key"),
   claim_c10.2.1 (parse (ascii "key")) (JInv_parse (ascii "key")),
   by decide,
   claim_c10.2.2.1 (ascii "key") 4 (.inl (by decide)),
   claim_c10.2.2.2 (ascii "key") 4 (by decide)⟩

/-- A hex digit has value at most 15. -/
theorem hexDigit_le15 (c : Char) (d : Nat) (h : hexDigit c = some d) : d ≤ 15 := by
  unfold hexDigit at h
  split at h
  · cases h
    rename_i hr
    have h2 : c.toNat ≤ 57 := by
      have := hr.2
      simp only [Char.le_def] at this
      exact this
    rw [show ('0' : Char).toNat = 48 from rfl]
    omega
  · split at h
    · cases h
      rename_i hr
      have h2 : c.toNat ≤ 102 := by
        have := hr.2
        simp only [Char.le_def] at this
        exact this
      rw [show ('a' : Char).toNat = 97 from rfl]
      omega
    · split at h
      · cases h
        rename_i hr
        have h2 : c.toNat ≤ 70 := by
          have := hr.2
          simp only [Char.le_def] at this
          exact this
        rw [show ('A' : Char).toNat = 65 from rfl]
        omega
      · exact Option.noConfusion h

/-- A hex digit is not a sign character. -/
theorem hexDigit_ne (c : Char) (d : Nat) (h : hexDigit c = some d) :
    c ≠ '+' ∧ c ≠ '-' := by
  constructor <;> rintro rfl <;> simp [hexDigit] at h

/-- Value bound for the hex accumulator. -/
theorem parseHexAux_lt : ∀ (cs : List Char) (acc n : Nat),
    parseHexAux cs acc = some n → n < (acc + 1) * 16 ^ cs.length
  | [], acc, n, h => by
    cases h
    simp
  | c :: cs, acc, n, h => by
    simp only [parseHexAux] at h
    cases hd : hexDigit c with
    | none => rw [hd] at h; exact Option.noConfusion h
    | some d =>
      rw [hd] at h
      have hle := hexDigit_le15 c d hd
      have := parseHexAux_lt cs (acc * 16 + d) n h
      have hpow : (acc * 16 + d + 1) * 16 ^ cs.length ≤ (acc + 1) * 16 ^ (cs.length + 1) := by
        rw [pow_succ]
        have h1 : acc * 16 + d + 1 ≤ (acc + 1) * 16 := by omega
        calc (acc * 16 + d + 1) * 16 ^ cs.length
            ≤ ((acc + 1) * 16) * 16 ^ cs.length := Nat.mul_le_mul_right _ h1
          _ = (acc + 1) * (16 ^ cs.length * 16) := by ring
      simp only [List.length_cons]
      omega

/-- On a digit-headed string `from_str_radix` takes the unsigned branch. -/
theorem fromStrRadix16_digits (c : Char) (cs : List Char)
    (hplus : c ≠ '+') (hminus : c ≠ '-') :
    fromStrRadix16 (c :: cs) =
      (parseHexDigits (c :: cs)).bind
        (fun n => if n < 4294967296 then some n else none) := by
  unfold fromStrRadix16
  split
  · rename_i heq
    injection heq with h1 h2
    exact absurd h1 hplus
  · rename_i heq
    injection heq with h1 h2
    exact absurd h1 hminus
  · rfl

/-- Inside a brace escape the decoder collects the digits up to the first
closing brace and converts them. -/
theorem escLoop_brace : ∀ (ds : List Char) (lno : Nat) (rest acc pre : List Char),
    '}' ∉ ds →
    escLoop lno (ds ++ '}' :: rest) (.brace pre) acc =
      match hexToChar (pre.reverse ++ ds) with
      | some ch => escLoop lno rest .normal (ch :: acc)
      | none => .error ⟨lno, invalidBraceMsg (pre.reverse ++ ds)⟩
  | [], lno, rest, acc, pre, hmem => by
    simp only [List.nil_append, escLoop]
    rw [if_pos trivial]
    simp only [List.append_nil]
    cases hexToChar pre.reverse <;> rfl
  | d :: ds, lno, rest, acc, pre, hmem => by
    simp only [List.cons_append, escLoop]
    rw [if_neg (by intro h; exact hmem (h ▸ List.mem_cons_self d ds))]
    have := escLoop_brace ds lno rest acc (d :: pre)
      (fun h => hmem (List.mem_cons_of_mem d h))
    simp only [List.append_eq]
    rw [this]
    have hpr : (d :: pre).reverse ++ ds = pre.reverse ++ d :: ds := by simp
    rw [hpr]

/-- C4: `unescape` of a `MapKey` or `Value` not starting with a quote is
the borrowed lexeme itself; if the lexeme is quoted, of length at least 2
and its interior has no quote and no backslash, the result is the borrowed
interior. -/
theorem claim_c4 :
    (∀ (lno : Nat) (val : List Char), val.head? ≠ some '"' →
      Token.unescape (.mapKey lno val) = .ok (.borrowed val) ∧
      Token.unescape (.value lno val) = .ok (.borrowed val)) ∧
    (∀ (lno : Nat) (val : List Char),
      val.head? = some '"' → val.getLast? = some '"' → 2 ≤ val.length →
      (∀ c ∈ (val.drop 1).take (val.length - 2), c ≠ '"' ∧ c ≠ '\\') →
      Token.unescape (.mapKey lno val) =
        .ok (.borrowed ((val.drop 1).take (val.length - 2))) ∧
      Token.unescape (.value lno val) =
        .ok (.borrowed ((val.drop 1).take (val.length - 2)))) := by
  constructor
  · intro lno val h
    constructor <;> (simp only [Token.unescape]; rw [if_pos h])
  · intro lno val h1 h2 h3 h4
    have hno : ¬((val.drop 1).take (val.length - 2)).any
        (fun c => c = '"' ∨ c = '\\') = true := by
      intro hany
      rw [List.any_eq_true] at hany
      obtain ⟨c, hc, hcp⟩ := hany
      have := h4 c hc
      simp only [decide_eq_true_eq] at hcp
      rcases hcp with h | h
      · exact this.1 h
      · exact this.2 h
    have hcond : val.head? = some '"' ∧ val.getLast? = some '"' ∧ val.length > 1 ∧
        ¬((val.drop 1).take (val.length - 2)).any (fun c => c = '"' ∨ c = '\\') :=
      ⟨h1, h2, by omega, hno⟩
    constructor <;>
      (simp only [Token.unescape]
       rw [if_neg (fun hc => hc h1), if_pos hcond])

theorem claim_c4_witness :
    (['a', 'b'].head? ≠ some '"' ∧
      Token.unescape (.value 1 ['a', 'b']) = .ok (.borrowed ['a', 'b'])) ∧
    (Token.unescape (.mapKey 2 ['"', 'a', 'b', '"']) =
      .ok (.borrowed ['a', 'b'])) :=
  ⟨⟨by decide, (claim_c4.1 1 ['a', 'b'] (by decide)).2⟩,
   (claim_c4.2 2 ['"', 'a', 'b', '"'] (by decide) (by decide) (by decide)
      (by decide)).1⟩

/-- C5: a brace escape of up to 8 hex digits decodes to the corresponding
Unicode scalar value, a non-scalar codepoint or more than 8 digits is the
"invalid escape code" error with the offending digits, and an escaped
character other than the six recognised ones is a syntax error; boundary
cases `\x7b0\x7d`, `\x7b10FFFF\x7d` and `\x7b110000\x7d` behave accordingly. -/
theorem claim_c5 :
    (∀ (ds : List Char) (n : Nat),
      (∀ c ∈ ds, (hexDigit c).isSome) → ds.length ≤ 8 →
      parseHexDigits ds = some n →
      n < 4294967296 ∧
      (isScalar n = true → hexToChar ds = some (Char.ofNat n)) ∧
      (isScalar n = false → hexToChar ds = none)) ∧
    (∀ (ds : List Char), 8 < ds.length → hexToChar ds = none) ∧
    (∀ (lno : Nat) (ds rest acc : List Char), '}' ∉ ds →
      (∀ ch, hexToChar ds = some ch →
        escLoop lno ('\\' :: '{' :: (ds ++ '}' :: rest)) .normal acc =
          escLoop lno rest .normal (ch :: acc)) ∧
      (hexToChar ds = none →
        escLoop lno ('\\' :: '{' :: (ds ++ '}' :: rest)) .normal acc =
          .error ⟨lno, invalidBraceMsg ds⟩)) ∧
    (∀ (lno : Nat) (c : Char) (rest acc : List Char),
      c ≠ '"' → c ≠ '\\' → c ≠ 'n' → c ≠ 'r' → c ≠ 't' → c ≠ '{' →
      escLoop lno (c :: rest) .escaped acc =
        .error ⟨lno, "invalid escape code: \\" ++ String.mk [c]⟩) ∧
    (Token.unescape (.value 1 ['"', '\\', '{', '0', '}', '"']) =
        .ok (.owned [Char.ofNat 0]) ∧
     Token.unescape (.value 1
        ['"', '\\', '{', '1', '0', 'F', 'F', 'F', 'F', '}', '"']) =
        .ok (.owned [Char.ofNat 1114111]) ∧
     Token.unescape (.value 1
        ['"', '\\', '{', '1', '1', '0', '0', '0', '0', '}', '"']) =
        .error ⟨1, invalidBraceMsg ['1', '1', '0', '0', '0', '0']⟩ ∧
     Token.unescape (.value 1
        ['"', '\\', '{', '0', '0', '0', '0', '0', '0', '0', '0', '1', '}', '"']) =
        .error ⟨1, invalidBraceMsg ['0', '0', '0', '0', '0', '0', '0', '0', '1']⟩ ∧
     Token.unescape (.value 1 ['"', '\\', 'q', '"']) =
        .error ⟨1, "invalid escape code: \\q"⟩) := by
  refine ⟨?_, ?_, ?_, ?_, by decide, by decide, by decide, by decide, by decide⟩
  · intro ds n hall hlen hparse
    have hne : ds ≠ [] := by
      intro h
      subst h
      simp [parseHexDigits] at hparse
    have haux : parseHexAux ds 0 = some n := by
      cases ds with
      | nil => exact absurd rfl hne
      | cons c cs => simpa [parseHexDigits] using hparse
    have hbound : n < 4294967296 := by
      have h1 := parseHexAux_lt ds 0 n haux
      have h2 : (16 : Nat) ^ ds.length ≤ 16 ^ 8 :=
        Nat.pow_le_pow_right (by omega) hlen
      have h3 : (16 : Nat) ^ 8 = 4294967296 := by norm_num
      simp only [one_mul] at h1
      omega
    have hstep : fromStrRadix16 ds = some n := by
      cases ds with
      | nil => exact absurd rfl hne
      | cons c cs =>
        have hc := hall c (List.mem_cons_self c cs)
        obtain ⟨d, hd⟩ := Option.isSome_iff_exists.mp hc
        obtain ⟨hplus, hminus⟩ := hexDigit_ne c d hd
        rw [fromStrRadix16_digits c cs hplus hminus, hparse]
        simp [hbound]
    refine ⟨hbound, ?_, ?_⟩
    · intro hsc
      unfold hexToChar
      rw [hstep]
      simp [hlen, hsc]
    · intro hsc
      unfold hexToChar
      rw [hstep]
      simp [hlen, hsc]
  · intro ds hlen
    unfold hexToChar
    cases fromStrRadix16 ds with
    | none => rfl
    | some n => simp [Nat.not_le.mpr hlen]
  · intro lno ds rest acc hmem
    have hred : escLoop lno ('\\' :: '{' :: (ds ++ '}' :: rest)) .normal acc =
        escLoop lno (ds ++ '}' :: rest) (.brace []) acc := rfl
    have hb := escLoop_brace ds lno rest acc [] hmem
    simp only [List.reverse_nil, List.nil_append] at hb
    constructor
    · intro ch hch
      rw [hred, hb, hch]
    · intro hch
      rw [hred, hb, hch]
  · intro lno c rest acc h1 h2 h3 h4 h5 h6
    simp only [escLoop]
    rw [if_neg h1, if_neg h2, if_neg h3, if_neg h4, if_neg h5, if_neg h6]

theorem claim_c5_witness :
    ((∀ c ∈ ['F', 'F'], (hexDigit c).isSome) ∧
      parseHexDigits ['F', 'F'] = some 255 ∧
      hexToChar ['F', 'F'] = some (Char.ofNat 255)) ∧
    hexToChar ['0', '0', '0', '0', '0', '0', '0', '0', '1'] = none ∧
    escLoop 1 ('\\' :: '{' :: (['4', '1'] ++ '}' :: ['"'])) .normal [] =
      escLoop 1 ['"'] .normal ['A'] ∧
    escLoop 1 ('q' :: ['"']) .escaped [] =
      .error ⟨1, "invalid escape code: \\q"⟩ :=
  ⟨⟨by decide, by decide,
    ((claim_c5.1 ['F', 'F'] 255 (by decide) (by decide) (by decide)).2.1 (by decide))⟩,
   claim_c5.2.1 ['0', '0', '0', '0', '0', '0', '0', '0', '1'] (by decide),
   (claim_c5.2.2.1 1 ['4', '1'] ['"'] [] (by decide)).1 'A' (by decide),
   claim_c5.2.2.2.1 1 'q' ['"'] [] (by decide) (by decide) (by decide)
     (by decide) (by decide) (by decide)⟩

/-- `findIdx` splits a list exactly where `takeWhile`/`dropWhile` of the
negated predicate do. -/
theorem findIdx_take_drop (p : Nat → Bool) : ∀ (xs : List Nat),
    xs.take (xs.findIdx p) = xs.takeWhile (fun c => !p c) ∧
    xs.drop (xs.findIdx p) = xs.dropWhile (fun c => !p c)
  | [] => ⟨rfl, rfl⟩
  | c :: cs => by
    by_cases hp : p c
    · simp [List.findIdx_cons, hp, List.takeWhile_cons, List.dropWhile_cons]
    · have := findIdx_take_drop p cs
      simp [List.findIdx_cons, hp, List.takeWhile_cons, List.dropWhile_cons,
        this.1, this.2]

/-- C9 (amended): a pending value starting with three double quotes is
handed to the hint scanner, which collects the bytes up to the end of line
or the first `;` — quoted or not — decodes and trims them as the tag,
consumes exactly those bytes, and sets `expect_multiline`. -/
theorem claim_c9 :
    (∀ (t : Tokenizer) (hint : List Nat),
      consumeValue t (34 :: 34 :: 34 :: hint) = consumeMultilineHint t hint) ∧
    (∀ (t : Tokenizer) (rest : List Nat) (s : List Char),
      utf8Decode (rest.takeWhile (fun c => !(isNlB c || c == 59))) = some s →
      consumeMultilineHint t rest =
        (.ok (.multilineHint t.lno (trimMatches isWsC s)),
         { t with input := rest.dropWhile (fun c => !(isNlB c || c == 59)),
                  expectMultiline := true })) ∧
    ((runTokenizer 2 (tokenize (ascii "k = \"\"\" \"a;b\""))).1 =
      [Except.ok (Token.mapKey 1 ['k']),
       Except.ok (Token.multilineHint 1 ['"', 'a'])] ∧
     (runTokenizer 2 (tokenize (ascii "k = \"\"\" \"a;b\""))).2.2.expectMultiline =
       true) := by
  refine ⟨?_, ?_, by decide⟩
  · intro t hint
    rfl
  · intro t rest s hs
    have h := findIdx_take_drop (fun c => isNlB c || c == 59) rest
    simp only [consumeMultilineHint]
    rw [h.1, h.2, hs]

/-- C9 counterexample: for the tag text `"a;b"` the scanner stops at the
`;` although it is inside quotes, so the emitted tag is `"a`, not the
`"a;b"` predicted by the quote-aware scan of the specification. -/
theorem claim_c9_counterexample :
    (runTokenizer 2 (tokenize (ascii "k = \"\"\" \"a;b\""))).1 =
      [Except.ok (Token.mapKey 1 ['k']),
       Except.ok (Token.multilineHint 1 ['"', 'a'])] ∧
    (utf8Decode (specHintScan (ascii " \"a;b\"") false)).map (trimMatches isWsC) =
      some ['"', 'a', ';', 'b', '"'] ∧
    (['"', 'a'] : List Char) ≠ ['"', 'a', ';', 'b', '"'] := by decide

theorem claim_c9_witness :
    consumeValue (tokenize []) (34 :: 34 :: 34 :: [97]) =
      consumeMultilineHint (tokenize []) [97] ∧
    (utf8Decode ([97].takeWhile (fun c => !(isNlB c || c == 59))) = some ['a'] ∧
      consumeMultilineHint (tokenize []) [97] =
        (.ok (.multilineHint 1 ['a']),
         { tokenize [] with input := [], expectMultiline := true })) :=
  ⟨claim_c9.1 (tokenize []) [97],
   by decide,
   by
    have := claim_c9.2.1 (tokenize []) [97] ['a'] (by decide)
    simpa using this⟩

theorem splitOnChar_ne_nil (sep : Char) : ∀ (s : List Char), splitOnChar sep s ≠ []
  | [] => by simp [splitOnChar]
  | c :: rest => by
    simp only [splitOnChar]
    by_cases hc : c = sep
    · simp [hc]
    · rw [if_neg hc]
      cases h : splitOnChar sep rest with
      | nil => simp
      | cons l ls => simp

theorem splitCr_cons {c : Char} (rest : List Char) (h : c ≠ '\r') :
    splitCr (c :: rest) =
      match splitCr rest with
      | [] => [[c]]
      | l :: ls => (c :: l) :: ls := by
  rw [splitCr.eq_def]
  split
  · rename_i heq
    exact List.noConfusion heq
  · rename_i heq
    injection heq with h1 h2
    exact absurd h1 h
  · rename_i hne heq
    injection heq with ha hb
    subst ha; subst hb
    rfl

theorem splitCr_eq : ∀ (s : List Char), splitCr s = splitOnChar '\r' s
  | [] => rfl
  | c :: rest => by
    by_cases hc : c = '\r'
    · subst hc
      rw [show splitCr ('\r' :: rest) = [] :: splitCr rest from rfl]
      simp only [splitOnChar]
      rw [if_pos trivial, splitCr_eq rest]
    · rw [splitCr_cons rest hc]
      simp only [splitOnChar, if_neg hc]
      rw [splitCr_eq rest]

theorem rustLines_nl (r : List Char) : rustLines ('\n' :: r) = [] :: rustLines r := rfl

theorem rustLines_cons {c : Char} (rest : List Char) (h : c ≠ '\n') :
    rustLines (c :: rest) =
      match rustLines rest with
      | [] => [[c]]
      | l :: ls =>
        if c = '\r' ∧ rest ≠ [] ∧ rest.head? = some '\n' then l :: ls
        else (c :: l) :: ls := by
  rw [rustLines.eq_def]
  split
  · rename_i heq
    exact List.noConfusion heq
  · rename_i heq
    injection heq with h1 h2
    exact absurd h1 h
  · rename_i hne heq
    injection heq with ha hb
    subst ha; subst hb
    rfl

theorem rustLines_ne_nil : ∀ (r : List Char), r ≠ [] → rustLines r ≠ []
  | [], h => absurd rfl h
  | c :: rest, h => by
    by_cases hc : c = '\n'
    · subst hc
      rw [rustLines_nl]
      simp
    · rw [rustLines_cons rest hc]
      cases hr : rustLines rest with
      | nil => simp
      | cons l ls =>
        by_cases hcond : c = '\r' ∧ rest ≠ [] ∧ rest.head? = some '\n'
        · simp [hcond]
        · simp [hcond]

theorem specLines_nl (r : List Char) : specLines ('\n' :: r) = [] :: specLines r := by
  have hne := splitOnChar_ne_nil '\n' r
  simp only [specLines, splitOnChar]
  rw [if_pos trivial]
  rw [getLast?_cons_of_ne [] hne, List.dropLast_cons_of_ne_nil hne]
  by_cases hl : (splitOnChar '\n' r).getLast? = some []
  · rw [if_pos hl, if_pos hl]
    rfl
  · rw [if_neg hl, if_neg hl]
    rfl

theorem stripCrEnd_cons {c : Char} {p : List Char} (h : p ≠ []) :
    stripCrEnd (c :: p) = c :: stripCrEnd p := by
  unfold stripCrEnd
  rw [getLast?_cons_of_ne c h, List.dropLast_cons_of_ne_nil h]
  by_cases hl : p.getLast? = some '\r' <;> simp [hl]

theorem splitOnChar_head_nil : ∀ (r : List Char) (ps' : List (List Char)),
    splitOnChar '\n' r = [] :: ps' → r ≠ [] → r.head? = some '\n'
  | [], ps', h, hr => absurd rfl hr
  | c :: r2, ps', h, hr => by
    by_cases hc : c = '\n'
    · subst hc; rfl
    · simp only [splitOnChar, if_neg hc] at h
      cases h2 : splitOnChar '\n' r2 with
      | nil => exact absurd h2 (splitOnChar_ne_nil '\n' r2)
      | cons l ls =>
        rw [h2] at h
        injection h with h3 h4
        exact List.noConfusion h3

theorem specLines_cons {c : Char} (r : List Char) (hc : c ≠ '\n')
    (hcr : ¬(c = '\r' ∧ r.head? = some '\n')) (hr : r ≠ []) :
    ∃ h0 t0, specLines r = h0 :: t0 ∧ specLines (c :: r) = (c :: h0) :: t0 := by
  cases hP : splitOnChar '\n' r with
  | nil => exact absurd hP (splitOnChar_ne_nil '\n' r)
  | cons p0 ps' =>
    have hPc : splitOnChar '\n' (c :: r) = (c :: p0) :: ps' := by
      simp only [splitOnChar, if_neg hc, hP]
    have hstrip : stripCrEnd (c :: p0) = c :: stripCrEnd p0 := by
      cases hp0 : p0 with
      | nil =>
        have hhd : r.head? = some '\n' :=
          splitOnChar_head_nil r ps' (hp0 ▸ hP) hr
        have hcne : c ≠ '\r' := fun h => hcr ⟨h, hhd⟩
        simp [stripCrEnd, hcne]
      | cons q qs => exact stripCrEnd_cons (by simp)
    rcases ps' with _ | ⟨q, qs⟩
    · have hp0ne : p0 ≠ [] := by
        intro h
        subst h
        exact hr (by
          cases r with
          | nil => rfl
          | cons d r2 =>
            by_cases hd : d = '\n'
            · subst hd
              simp only [splitOnChar, if_pos trivial] at hP
              injection hP with h1 h2
              exact absurd h2 (splitOnChar_ne_nil '\n' r2)
            · simp only [splitOnChar, if_neg hd] at hP
              cases h2 : splitOnChar '\n' r2 with
              | nil => exact absurd h2 (splitOnChar_ne_nil '\n' r2)
              | cons l ls =>
                rw [h2] at hP
                injection hP with h3 h4
                exact List.noConfusion h3)
      refine ⟨p0, [], ?_, ?_⟩
      · simp [specLines, hP, hp0ne]
      · simp [specLines, hPc]
    · by_cases hg : (q :: qs).getLast? = some []
      · refine ⟨stripCrEnd p0, ((q :: qs).dropLast).map stripCrEnd, ?_, ?_⟩
        · simp [specLines, hP, List.getLast?_cons_cons, hg]
        · simp [specLines, hPc, List.getLast?_cons_cons, hg, hstrip]
      · refine ⟨stripCrEnd p0,
          ((q :: qs).dropLast).map stripCrEnd ++ [((q :: qs).getLast?).getD []], ?_, ?_⟩
        · simp [specLines, hP, List.getLast?_cons_cons, hg]
        · simp [specLines, hPc, List.getLast?_cons_cons, hg, hstrip]

theorem splitOnChar_cons_ne {sep c : Char} (r : List Char) (h : c ≠ sep)
    (p : List Char) (ps : List (List Char)) (hP : splitOnChar sep r = p :: ps) :
    splitOnChar sep (c :: r) = (c :: p) :: ps := by
  simp only [splitOnChar, if_neg h, hP]

theorem specLines_crnl (r2 : List Char) :
    specLines ('\r' :: '\n' :: r2) = specLines ('\n' :: r2) := by
  cases hP : splitOnChar '\n' r2 with
  | nil => exact absurd hP (splitOnChar_ne_nil '\n' r2)
  | cons p ps =>
    have h1 : splitOnChar '\n' ('\n' :: r2) = [] :: p :: ps := by
      simp only [splitOnChar]
      rw [if_pos trivial, hP]
    have h2 : splitOnChar '\n' ('\r' :: '\n' :: r2) = ['\r'] :: p :: ps :=
      splitOnChar_cons_ne ('\n' :: r2) (by decide) [] (p :: ps) h1
    by_cases hg : (p :: ps).getLast? = some []
    · simp [specLines, h1, h2, List.getLast?_cons_cons, hg, stripCrEnd]
    · simp [specLines, h1, h2, List.getLast?_cons_cons, hg, stripCrEnd]

theorem rustLines_eq : ∀ (s : List Char), rustLines s = specLines s
  | [] => rfl
  | c :: rest => by
    by_cases hc : c = '\n'
    · subst hc
      rw [rustLines_nl, specLines_nl, rustLines_eq rest]
    · by_cases hcr : c = '\r' ∧ rest.head? = some '\n'
      · obtain ⟨hceq, hh⟩ := hcr
        subst hceq
        cases rest with
        | nil => simp at hh
        | cons d r2 =>
          have hd : d = '\n' := by simpa using hh
          subst hd
          have h1 : rustLines ('\r' :: '\n' :: r2) = rustLines ('\n' :: r2) := by
            rw [rustLines_cons ('\n' :: r2) hc, rustLines_nl]
            show (if ('\r' : Char) = '\r' ∧ ('\n' :: r2 : List Char) ≠ [] ∧
                ('\n' :: r2).head? = some '\n' then [] :: rustLines r2
              else ('\r' :: []) :: rustLines r2) = [] :: rustLines r2
            rw [if_pos ⟨rfl, by simp, rfl⟩]
          rw [h1, specLines_crnl, rustLines_eq ('\n' :: r2)]
      · cases rest with
        | nil =>
          rw [rustLines_cons [] hc]
          show [[c]] = specLines [c]
          simp [specLines, splitOnChar, hc]
        | cons d r2 =>
          have hlls : rustLines (d :: r2) ≠ [] := rustLines_ne_nil (d :: r2) (by simp)
          cases hrl : rustLines (d :: r2) with
          | nil => exact absurd hrl hlls
          | cons l ls =>
            rw [rustLines_cons (d :: r2) hc, hrl]
            show (if c = '\r' ∧ (d :: r2 : List Char) ≠ [] ∧ (d :: r2).head? = some '\n'
                then l :: ls else (c :: l) :: ls) = specLines (c :: d :: r2)
            rw [if_neg (by
              rintro ⟨ha, hb, hd2⟩
              exact hcr ⟨ha, hd2⟩)]
            obtain ⟨h0, t0, hs1, hs2⟩ := specLines_cons (d :: r2) hc hcr (by simp)
            have hIH := rustLines_eq (d :: r2)
            rw [hrl, hs1] at hIH
            injection hIH with hl0 hls0
            rw [hs2, hl0, hls0]

/-- C6 (amended): `unescape` of a `MultilineValue` whose body has no
newline is the borrowed body; otherwise the body is split per Rust
`str::lines` — terminator `\n` or `\r\n`, one trailing `\r` removed per
terminated line, no empty final line after a trailing terminator — then
split further on `\r`, each line is stripped of the indent prefix when
present (first line kept verbatim, later unmatched lines keep only their
break), and the pieces are joined with `\n`. -/
theorem claim_c6 :
    (∀ (l : Nat) (ind val : List Char),
      ¬val.any (fun c => isNlC c) = true →
      Token.unescape (.multilineValue l ind val) = .ok (.borrowed val)) ∧
    (∀ (l : Nat) (ind val : List Char),
      val.any (fun c => isNlC c) = true →
      Token.unescape (.multilineValue l ind val) =
        .ok (.owned (specAmendedML ind val))) := by
  constructor
  · intro l ind val hany
    simp only [Token.unescape]
    rw [if_pos hany]
  · intro l ind val hany
    simp only [Token.unescape]
    rw [if_neg (not_not_intro hany)]
    unfold specAmendedML
    rw [rustLines_eq val, show splitCr = splitOnChar '\r' from funext splitCr_eq]

/-- C6 counterexample: on the body `a\r\nb` the code treats `\r\n` as one
terminator and yields `a\nb`, while the specified naive split on `\n` and
then `\r` would yield an extra empty line, `a\n\nb`. -/
theorem claim_c6_counterexample :
    Token.unescape (.multilineValue 1 [] ['a', '\r', '\n', 'b']) =
      .ok (.owned ['a', '\n', 'b']) ∧
    specLiteralML [] ['a', '\r', '\n', 'b'] = ['a', '\n', '\n', 'b'] ∧
    (['a', '\n', 'b'] : List Char) ≠ ['a', '\n', '\n', 'b'] := by decide

theorem claim_c6_witness :
    (¬(['a', 'b'] : List Char).any (fun c => isNlC c) = true ∧
      Token.unescape (.multilineValue 1 [] ['a', 'b']) = .ok (.borrowed ['a', 'b'])) ∧
    ((['x', '\n', 'y'] : List Char).any (fun c => isNlC c) = true ∧
      Token.unescape (.multilineValue 1 [] ['x', '\n', 'y']) =
        .ok (.owned (specAmendedML [] ['x', '\n', 'y']))) :=
  ⟨⟨by decide, claim_c6.1 1 [] ['a', 'b'] (by decide)⟩,
   ⟨by decide, claim_c6.2 1 [] ['x', '\n', 'y'] (by decide)⟩⟩

theorem splitInclusiveNl_join : ∀ (s : List Nat), (splitInclusiveNl s).join = s
  | [] => rfl
  | c :: cs => by
    simp only [splitInclusiveNl]
    by_cases hc : isNlB c
    · rw [if_pos hc]
      simp [splitInclusiveNl_join cs]
    · rw [if_neg hc]
      cases h : splitInclusiveNl cs with
      | nil =>
        have := splitInclusiveNl_join cs
        rw [h] at this
        simp at this
        simp [← this]
      | cons l ls =>
        have := splitInclusiveNl_join cs
        rw [h] at this
        simp [← this]

theorem splitInclusiveNl_seg : ∀ (s : List Nat) (seg : List Nat),
    seg ∈ splitInclusiveNl s →
    seg ≠ [] ∧ ∀ b ∈ seg.dropLast, isNlB b = false
  | [], seg, h => by simp [splitInclusiveNl] at h
  | c :: cs, seg, h => by
    simp only [splitInclusiveNl] at h
    by_cases hc : isNlB c
    · rw [if_pos hc] at h
      rcases List.mem_cons.mp h with h1 | h1
      · subst h1
        exact ⟨by simp, by simp⟩
      · exact splitInclusiveNl_seg cs seg h1
    · rw [if_neg hc] at h
      cases h2 : splitInclusiveNl cs with
      | nil =>
        rw [h2] at h
        rcases List.mem_cons.mp h with h1 | h1
        · subst h1
          exact ⟨by simp, by simp⟩
        · simp at h1
      | cons l ls =>
        rw [h2] at h
        rcases List.mem_cons.mp h with h1 | h1
        · subst h1
          have hl := splitInclusiveNl_seg cs l (by rw [h2]; exact List.mem_cons_self l ls)
          refine ⟨by simp, ?_⟩
          intro b hb
          cases l with
          | nil => simp at hb
          | cons x xs =>
            rw [List.dropLast_cons_of_ne_nil (by simp)] at hb
            rcases List.mem_cons.mp hb with hb1 | hb1
            · subst hb1
              simpa using hc
            · exact hl.2 b hb1
        · exact splitInclusiveNl_seg cs seg (by rw [h2]; exact List.mem_cons_of_mem l h1)

theorem splitInclusiveNl_last : ∀ (s : List Nat) (seg : List Nat),
    seg ∈ (splitInclusiveNl s).dropLast →
    ∃ nlb, seg.getLast? = some nlb ∧ isNlB nlb = true
  | [], seg, h => by simp [splitInclusiveNl] at h
  | c :: cs, seg, h => by
    simp only [splitInclusiveNl] at h
    by_cases hc : isNlB c
    · rw [if_pos hc] at h
      cases h2 : splitInclusiveNl cs with
      | nil =>
        rw [h2] at h
        simp at h
      | cons l ls =>
        rw [h2] at h
        rw [List.dropLast_cons_of_ne_nil (by simp)] at h
        rcases List.mem_cons.mp h with h1 | h1
        · subst h1
          exact ⟨c, rfl, by simpa using hc⟩
        · exact splitInclusiveNl_last cs seg (by rw [h2]; exact h1)
    · rw [if_neg hc] at h
      cases h2 : splitInclusiveNl cs with
      | nil =>
        rw [h2] at h
        simp at h
      | cons l ls =>
        rw [h2] at h
        cases ls with
        | nil => simp at h
        | cons m ms =>
          rw [List.dropLast_cons_of_ne_nil (by simp)] at h
          rcases List.mem_cons.mp h with h1 | h1
          · subst h1
            have hl := splitInclusiveNl_last cs l (by
              rw [h2]
              rw [List.dropLast_cons_of_ne_nil (by simp)]
              exact List.mem_cons_self l (m :: ms).dropLast)
            obtain ⟨nlb, hn1, hn2⟩ := hl
            refine ⟨nlb, ?_, hn2⟩
            have hlne : l ≠ [] := by
              intro hh
              rw [hh] at hn1
              exact Option.noConfusion hn1
            rw [getLast?_cons_of_ne c hlne]
            exact hn1
          · exact splitInclusiveNl_last cs seg (by
              rw [h2]
              rw [List.dropLast_cons_of_ne_nil (by simp)]
              exact List.mem_cons_of_mem l h1)

theorem mlScan_split (ind : List Nat) : ∀ (segs : List (List Nat)) (wasCr : Bool),
    ∃ segsA segsB, segs = segsA ++ segsB ∧
      (mlScan ind segs wasCr).1 = segsA.join.length ∧
      ∀ seg ∈ segsA, ind.isPrefixOf seg = true ∨
        seg.all (fun c => isWsB c || isNlB c) = true
  | [], wasCr => ⟨[], [], rfl, by simp [mlScan], by simp⟩
  | seg :: rest, wasCr => by
    by_cases hacc : (ind.isPrefixOf seg || seg.all (fun c => isWsB c || isNlB c)) = true
    · obtain ⟨A, B, hAB, hlen, hmem⟩ :=
        mlScan_split ind rest (seg.getLast? == some 13)
      refine ⟨seg :: A, B, by simp [hAB], ?_, ?_⟩
      · simp only [mlScan]
        rw [if_pos hacc]
        simp [hlen]
      · intro s2 hs2
        rcases List.mem_cons.mp hs2 with h1 | h1
        · subst h1
          simpa using hacc
        · exact hmem s2 h1
    · refine ⟨[], seg :: rest, rfl, ?_, by simp⟩
      simp only [mlScan]
      rw [if_neg hacc]
      simp

theorem toNat_ofNat_valid {n : Nat} (h : n.isValidChar) : (Char.ofNat n).toNat = n := by
  unfold Char.ofNat
  rw [dif_pos h]
  simp only [Char.ofNatAux, Char.toNat]
  have hlt : n < 4294967296 := by
    rcases h with h1 | ⟨h2, h3⟩ <;> omega
  rfl

theorem isCont_false {c : Nat} (hc : c < 128) : isCont c = false := by
  simp [isCont]
  omega

theorem twoByteB_false {b c : Nat} (hc : c < 128) : twoByteB b c = false := by
  simp [twoByteB, isCont]
  omega

theorem threeByteB_false2 {b c x : Nat} (hc : c < 128) : threeByteB b c x = false := by
  simp [threeByteB, isCont]
  omega

theorem threeByteB_false3 {b b2 c : Nat} (hc : c < 128) : threeByteB b b2 c = false := by
  simp [threeByteB, isCont]
  omega

theorem fourByteB_false2 {b c x y : Nat} (hc : c < 128) : fourByteB b c x y = false := by
  simp [fourByteB, isCont]
  omega

theorem fourByteB_false3 {b b2 c y : Nat} (hc : c < 128) : fourByteB b b2 c y = false := by
  simp [fourByteB, isCont]
  omega

theorem fourByteB_false4 {b b2 b3 c : Nat} (hc : c < 128) : fourByteB b b2 b3 c = false := by
  simp [fourByteB, isCont]
  omega

theorem utf8Decode_one {b : Nat} (hb : b < 128) (tail : List Nat) :
    utf8Decode (b :: tail) = (utf8Decode tail).map (fun cs => Char.ofNat b :: cs) := by
  rw [utf8Decode.eq_def]
  dsimp only
  rw [if_pos hb]

theorem utf8Decode_two {b b2 : Nat} (hb : ¬b < 128) (h2 : twoByteB b b2 = true)
    (tail : List Nat) :
    utf8Decode (b :: b2 :: tail) = (utf8Decode tail).map (fun cs => char2 b b2 :: cs) := by
  rw [utf8Decode.eq_def]
  dsimp only
  rw [if_neg hb, if_pos h2]

theorem utf8Decode_three {b b2 b3 : Nat} (hb : ¬b < 128)
    (h2 : twoByteB b b2 = false) (h3 : threeByteB b b2 b3 = true) (tail : List Nat) :
    utf8Decode (b :: b2 :: b3 :: tail) =
      (utf8Decode tail).map (fun cs => char3 b b2 b3 :: cs) := by
  rw [utf8Decode.eq_def]
  dsimp only
  rw [if_neg hb, h2, if_neg Bool.false_ne_true, if_pos h3]

theorem utf8Decode_four {b b2 b3 b4 : Nat} (hb : ¬b < 128)
    (h2 : twoByteB b b2 = false) (h3 : threeByteB b b2 b3 = false)
    (h4 : fourByteB b b2 b3 b4 = true) (tail : List Nat) :
    utf8Decode (b :: b2 :: b3 :: b4 :: tail) =
      (utf8Decode tail).map (fun cs => char4 b b2 b3 b4 :: cs) := by
  rw [utf8Decode.eq_def]
  dsimp only
  rw [if_neg hb, h2, if_neg Bool.false_ne_true, h3, if_neg Bool.false_ne_true,
    if_pos h4]


theorem utf8Decode_append_single (c : Nat) (hc : c < 128) :
    ∀ (bs rest : List Nat) (s : List Char),
    utf8Decode (bs ++ c :: rest) = some s →
    ∃ s1 s2, utf8Decode bs = some s1 ∧ utf8Decode rest = some s2 ∧
      s = s1 ++ Char.ofNat c :: s2 := by
  suffices H : ∀ (n : Nat) (bs : List Nat), bs.length ≤ n →
      ∀ (rest : List Nat) (s : List Char),
      utf8Decode (bs ++ c :: rest) = some s →
      ∃ s1 s2, utf8Decode bs = some s1 ∧ utf8Decode rest = some s2 ∧
        s = s1 ++ Char.ofNat c :: s2 by
    intro bs rest s h
    exact H bs.length bs le_rfl rest s h
  intro n
  induction n with
  | zero =>
    intro bs hlen rest s h
    have hbs : bs = [] := List.eq_nil_of_length_eq_zero (by omega)
    subst hbs
    rw [List.nil_append, utf8Decode_one hc] at h
    cases hr : utf8Decode rest with
    | none => rw [hr] at h; exact Option.noConfusion h
    | some s2 =>
      rw [hr] at h
      simp only [Option.map] at h
      cases h
      exact ⟨[], s2, rfl, rfl, rfl⟩
  | succ n ih =>
    intro bs hlen rest s h
    cases bs with
    | nil =>
      rw [List.nil_append, utf8Decode_one hc] at h
      cases hr : utf8Decode rest with
      | none => rw [hr] at h; exact Option.noConfusion h
      | some s2 =>
        rw [hr] at h
        simp only [Option.map] at h
        cases h
        exact ⟨[], s2, rfl, rfl, rfl⟩
    | cons b bs2 =>
      simp only [List.length_cons] at hlen
      by_cases hb : b < 128
      · rw [List.cons_append, utf8Decode_one hb] at h
        cases hin : utf8Decode (bs2 ++ c :: rest) with
        | none => rw [hin] at h; exact Option.noConfusion h
        | some sIn =>
          rw [hin] at h
          simp only [Option.map] at h
          cases h
          obtain ⟨s1, s2, h1, h2, h3⟩ := ih bs2 (by omega) rest sIn hin
          subst h3
          exact ⟨Char.ofNat b :: s1, s2, by rw [utf8Decode_one hb, h1]; rfl, h2, rfl⟩
      · cases bs2 with
        | nil =>
          rw [List.cons_append, List.nil_append] at h
          rw [utf8Decode.eq_def] at h
          dsimp only at h
          rw [if_neg hb, twoByteB_false hc, if_neg Bool.false_ne_true] at h
          cases rest with
          | nil => exact Option.noConfusion h
          | cons c2 r2 =>
            dsimp only at h
            rw [threeByteB_false2 hc, if_neg Bool.false_ne_true] at h
            cases r2 with
            | nil => exact Option.noConfusion h
            | cons c3 r3 =>
              dsimp only at h
              rw [fourByteB_false2 hc, if_neg Bool.false_ne_true] at h
              exact Option.noConfusion h
        | cons b2 bs3 =>
          simp only [List.length_cons] at hlen
          rw [List.cons_append, List.cons_append] at h
          rw [utf8Decode.eq_def] at h
          dsimp only at h
          rw [if_neg hb] at h
          by_cases h2 : twoByteB b b2 = true
          · rw [if_pos h2] at h
            cases hin : utf8Decode (bs3 ++ c :: rest) with
            | none => rw [hin] at h; exact Option.noConfusion h
            | some sIn =>
              rw [hin] at h
              simp only [Option.map] at h
              cases h
              obtain ⟨s1, s2, hh1, hh2, hh3⟩ := ih bs3 (by omega) rest sIn hin
              subst hh3
              exact ⟨char2 b b2 :: s1, s2,
                by rw [utf8Decode_two hb h2, hh1]; rfl, hh2, rfl⟩
          · have h2f : twoByteB b b2 = false := by simpa using h2
            rw [h2f, if_neg Bool.false_ne_true] at h
            cases bs3 with
            | nil =>
              rw [List.nil_append] at h
              dsimp only at h
              rw [threeByteB_false3 hc, if_neg Bool.false_ne_true] at h
              cases rest with
              | nil => exact Option.noConfusion h
              | cons c2 r2 =>
                dsimp only at h
                rw [fourByteB_false3 hc, if_neg Bool.false_ne_true] at h
                exact Option.noConfusion h
            | cons b3 bs4 =>
              simp only [List.length_cons] at hlen
              rw [List.cons_append] at h
              dsimp only at h
              by_cases h3 : threeByteB b b2 b3 = true
              · rw [if_pos h3] at h
                cases hin : utf8Decode (bs4 ++ c :: rest) with
                | none => rw [hin] at h; exact Option.noConfusion h
                | some sIn =>
                  rw [hin] at h
                  simp only [Option.map] at h
                  cases h
                  obtain ⟨s1, s2, hh1, hh2, hh3⟩ := ih bs4 (by omega) rest sIn hin
                  subst hh3
                  exact ⟨char3 b b2 b3 :: s1, s2,
                    by rw [utf8Decode_three hb h2f h3, hh1]; rfl, hh2, rfl⟩
              · have h3f : threeByteB b b2 b3 = false := by simpa using h3
                rw [h3f, if_neg Bool.false_ne_true] at h
                cases bs4 with
                | nil =>
                  rw [List.nil_append] at h
                  dsimp only at h
                  rw [fourByteB_false4 hc, if_neg Bool.false_ne_true] at h
                  exact Option.noConfusion h
                | cons b4 bs5 =>
                  simp only [List.length_cons] at hlen
                  rw [List.cons_append] at h
                  dsimp only at h
                  by_cases h4 : fourByteB b b2 b3 b4 = true
                  · rw [if_pos h4] at h
                    cases hin : utf8Decode (bs5 ++ c :: rest) with
                    | none => rw [hin] at h; exact Option.noConfusion h
                    | some sIn =>
                      rw [hin] at h
                      simp only [Option.map] at h
                      cases h
                      obtain ⟨s1, s2, hh1, hh2, hh3⟩ := ih bs5 (by omega) rest sIn hin
                      subst hh3
                      exact ⟨char4 b b2 b3 b4 :: s1, s2,
                        by rw [utf8Decode_four hb h2f h3f h4, hh1]; rfl, hh2, rfl⟩
                  · have h4f : fourByteB b b2 b3 b4 = false := by simpa using h4
                    rw [h4f, if_neg Bool.false_ne_true] at h
                    exact Option.noConfusion h

theorem valid2 {b b2 : Nat} (h : twoByteB b b2 = true) :
    ((b - 192) * 64 + (b2 - 128)).isValidChar ∧ 128 ≤ (b - 192) * 64 + (b2 - 128) := by
  simp [twoByteB, isCont] at h
  unfold Nat.isValidChar
  omega

theorem valid3 {b b2 b3 : Nat} (h : threeByteB b b2 b3 = true) :
    (((b - 224) * 64 + (b2 - 128)) * 64 + (b3 - 128)).isValidChar ∧
      2048 ≤ ((b - 224) * 64 + (b2 - 128)) * 64 + (b3 - 128) := by
  simp [threeByteB, isCont] at h
  unfold Nat.isValidChar
  omega

theorem valid4 {b b2 b3 b4 : Nat} (h : fourByteB b b2 b3 b4 = true) :
    ((((b - 240) * 64 + (b2 - 128)) * 64 + (b3 - 128)) * 64 + (b4 - 128)).isValidChar ∧
      65536 ≤ (((b - 240) * 64 + (b2 - 128)) * 64 + (b3 - 128)) * 64 + (b4 - 128) := by
  simp [fourByteB, isCont] at h
  unfold Nat.isValidChar
  omega

theorem ofNat_not_nl {v : Nat} (hv : v.isValidChar) (h10 : v ≠ 10) (h13 : v ≠ 13) :
    isNlC (Char.ofNat v) = false := by
  have ht := toNat_ofNat_valid hv
  simp only [isNlC, Bool.or_eq_false_iff, beq_eq_false_iff_ne, ne_eq]
  constructor
  · intro h
    rw [h] at ht
    exact h13 ht.symm
  · intro h
    rw [h] at ht
    exact h10 ht.symm

theorem isNlB_char {b : Nat} (h : isNlB b = true) : isNlC (Char.ofNat b) = true := by
  simp [isNlB] at h
  rcases h with h | h <;> subst h <;> decide

theorem isWsB_char {b : Nat} (h : isWsB b = true) : isWsC (Char.ofNat b) = true := by
  simp [isWsB] at h
  rcases h with h | h <;> subst h <;> decide

set_option maxRecDepth 4000 in
theorem utf8Decode_nlFree : ∀ (bs : List Nat) (cs : List Char),
    utf8Decode bs = some cs → (∀ b ∈ bs, isNlB b = false) →
    ∀ ch ∈ cs, isNlC ch = false := by
  suffices H : ∀ (n : Nat) (bs : List Nat), bs.length ≤ n → ∀ (cs : List Char),
      utf8Decode bs = some cs → (∀ b ∈ bs, isNlB b = false) →
      ∀ ch ∈ cs, isNlC ch = false by
    intro bs cs h hnl
    exact H bs.length bs le_rfl cs h hnl
  intro n
  induction n with
  | zero =>
    intro bs hlen cs h hnl ch hch
    have hbs : bs = [] := List.eq_nil_of_length_eq_zero (by omega)
    subst hbs
    cases h
    simp at hch
  | succ n ih =>
    intro bs hlen cs h hnl ch hch
    cases bs with
    | nil =>
      cases h
      simp at hch
    | cons b bs2 =>
      simp only [List.length_cons] at hlen
      by_cases hb : b < 128
      · rw [utf8Decode_one hb] at h
        cases hin : utf8Decode bs2 with
        | none => rw [hin] at h; exact Option.noConfusion h
        | some cs2 =>
          rw [hin] at h
          simp only [Option.map] at h
          cases h
          rcases List.mem_cons.mp hch with h1 | h1
          · subst h1
            have hbn := hnl b (List.mem_cons_self b bs2)
            simp only [isNlB, Bool.or_eq_false_iff, beq_eq_false_iff_ne, ne_eq] at hbn
            exact ofNat_not_nl (Or.inl (by omega)) hbn.2 hbn.1
          · exact ih bs2 (by omega) cs2 hin
              (fun x hx => hnl x (List.mem_cons_of_mem b hx)) ch h1
      · cases bs2 with
        | nil =>
          rw [utf8Decode.eq_def] at h
          dsimp only at h
          rw [if_neg hb] at h
          exact Option.noConfusion h
        | cons b2 bs3 =>
          simp only [List.length_cons] at hlen
          by_cases h2 : twoByteB b b2 = true
          · rw [utf8Decode_two hb h2] at h
            cases hin : utf8Decode bs3 with
            | none => rw [hin] at h; exact Option.noConfusion h
            | some cs2 =>
              rw [hin] at h
              simp only [Option.map] at h
              cases h
              rcases List.mem_cons.mp hch with h1 | h1
              · subst h1
                obtain ⟨hv, hge⟩ := valid2 h2
                exact ofNat_not_nl hv (by omega) (by omega)
              · exact ih bs3 (by omega) cs2 hin
                  (fun x hx => hnl x (List.mem_cons_of_mem b
                    (List.mem_cons_of_mem b2 hx))) ch h1
          · have h2f : twoByteB b b2 = false := by simpa using h2
            cases bs3 with
            | nil =>
              rw [utf8Decode.eq_def] at h
              dsimp only at h
              rw [if_neg hb, h2f, if_neg Bool.false_ne_true] at h
              exact Option.noConfusion h
            | cons b3 bs4 =>
              simp only [List.length_cons] at hlen
              by_cases h3 : threeByteB b b2 b3 = true
              · rw [utf8Decode_three hb h2f h3] at h
                cases hin : utf8Decode bs4 with
                | none => rw [hin] at h; exact Option.noConfusion h
                | some cs2 =>
                  rw [hin] at h
                  simp only [Option.map] at h
                  cases h
                  rcases List.mem_cons.mp hch with h1 | h1
                  · subst h1
                    obtain ⟨hv, hge⟩ := valid3 h3
                    exact ofNat_not_nl hv (by omega) (by omega)
                  · exact ih bs4 (by omega) cs2 hin
                      (fun x hx => hnl x (List.mem_cons_of_mem b
                        (List.mem_cons_of_mem b2 (List.mem_cons_of_mem b3 hx)))) ch h1
              · have h3f : threeByteB b b2 b3 = false := by simpa using h3
                cases bs4 with
                | nil =>
                  rw [utf8Decode.eq_def] at h
                  dsimp only at h
                  rw [if_neg hb, h2f, if_neg Bool.false_ne_true, h3f,
                    if_neg Bool.false_ne_true] at h
                  exact Option.noConfusion h
                | cons b4 bs5 =>
                  simp only [List.length_cons] at hlen
                  by_cases h4 : fourByteB b b2 b3 b4 = true
                  · rw [utf8Decode_four hb h2f h3f h4] at h
                    cases hin : utf8Decode bs5 with
                    | none => rw [hin] at h; exact Option.noConfusion h
                    | some cs2 =>
                      rw [hin] at h
                      simp only [Option.map] at h
                      cases h
                      rcases List.mem_cons.mp hch with h1 | h1
                      · subst h1
                        obtain ⟨hv, hge⟩ := valid4 h4
                        exact ofNat_not_nl hv (by omega) (by omega)
                      · exact ih bs5 (by omega) cs2 hin
                          (fun x hx => hnl x (List.mem_cons_of_mem b
                            (List.mem_cons_of_mem b2 (List.mem_cons_of_mem b3
                              (List.mem_cons_of_mem b4 hx))))) ch h1
                  · have h4f : fourByteB b b2 b3 b4 = false := by simpa using h4
                    rw [utf8Decode.eq_def] at h
                    dsimp only at h
                    rw [if_neg hb, h2f, if_neg Bool.false_ne_true, h3f,
                      if_neg Bool.false_ne_true, h4f, if_neg Bool.false_ne_true] at h
                    exact Option.noConfusion h

theorem utf8Decode_ascii_append : ∀ (a r : List Nat), (∀ b ∈ a, b < 128) →
    utf8Decode (a ++ r) = (utf8Decode r).map (fun cs => a.map Char.ofNat ++ cs)
  | [], r, h => by
    cases hr : utf8Decode r <;> simp [hr]
  | b :: a2, r, h => by
    rw [List.cons_append, utf8Decode_one (h b (List.mem_cons_self b a2)),
      utf8Decode_ascii_append a2 r (fun x hx => h x (List.mem_cons_of_mem b hx))]
    cases hr : utf8Decode r <;> simp [hr]

theorem splitAnyNl_nlFree : ∀ (s : List Char), (∀ ch ∈ s, isNlC ch = false) →
    splitAnyNl s = [s]
  | [], h => rfl
  | c :: cs, h => by
    simp only [splitAnyNl]
    rw [h c (List.mem_cons_self c cs), if_neg Bool.false_ne_true]
    rw [splitAnyNl_nlFree cs (fun x hx => h x (List.mem_cons_of_mem c hx))]

theorem splitAnyNl_append : ∀ (c1 : List Char) (nl : Char) (s2 : List Char),
    (∀ ch ∈ c1, isNlC ch = false) → isNlC nl = true →
    splitAnyNl (c1 ++ nl :: s2) = c1 :: splitAnyNl s2
  | [], nl, s2, h1, hnl => by
    simp only [List.nil_append, splitAnyNl]
    rw [hnl, if_pos rfl]
  | ch :: c1, nl, s2, h1, hnl => by
    rw [List.cons_append]
    simp only [splitAnyNl]
    rw [h1 ch (List.mem_cons_self ch c1), if_neg Bool.false_ne_true]
    rw [splitAnyNl_append c1 nl s2 (fun x hx => h1 x (List.mem_cons_of_mem ch hx)) hnl]

theorem getLast?_decomp : ∀ (l : List Nat) (a : Nat),
    l.getLast? = some a → l = l.dropLast ++ [a]
  | [], a, h => Option.noConfusion h
  | [x], a, h => by
    simp at h
    subst h
    rfl
  | x :: y :: l, a, h => by
    rw [List.getLast?_cons_cons] at h
    have := getLast?_decomp (y :: l) a h
    rw [List.dropLast_cons_of_ne_nil (by simp)]
    rw [List.cons_append, ← this]

theorem prefix_dropNl {indb content : List Nat} {lb : Nat}
    (hind : indb.all isWsB = true) (hlb : isNlB lb = true)
    (h : indb.isPrefixOf (content ++ [lb]) = true) :
    indb.isPrefixOf content = true := by
  obtain ⟨t, ht⟩ := List.isPrefixOf_iff_prefix.mp h
  rcases List.eq_nil_or_concat t with rfl | ⟨t2, a, rfl⟩
  · rw [List.append_nil] at ht
    have hmem : lb ∈ indb := by
      rw [ht]
      exact List.mem_append_right content (List.mem_singleton_self lb)
    have hws := List.all_eq_true.mp hind lb hmem
    simp [isWsB] at hws
    simp [isNlB] at hlb
    omega
  · rw [List.concat_eq_append, ← List.append_assoc] at ht
    obtain ⟨h1, h2⟩ := List.append_inj' ht rfl
    exact List.isPrefixOf_iff_prefix.mpr ⟨t2, h1⟩

theorem content_ok {indb : List Nat} (hind : indb.all isWsB = true)
    {content : List Nat} {c1 : List Char}
    (hdec : utf8Decode content = some c1)
    (hcase : indb.isPrefixOf content = true ∨
      content.all (fun b => isWsB b || isNlB b) = true)
    (hnlf : ∀ b ∈ content, isNlB b = false) :
    (indb.map Char.ofNat).isPrefixOf c1 = true ∨ c1.all isWsC = true := by
  rcases hcase with hpre | hblank
  · left
    obtain ⟨t, ht⟩ := List.isPrefixOf_iff_prefix.mp hpre
    subst ht
    rw [utf8Decode_ascii_append indb t (fun b hb => by
      have := List.all_eq_true.mp hind b hb
      simp [isWsB] at this
      omega)] at hdec
    cases hdt : utf8Decode t with
    | none => rw [hdt] at hdec; exact Option.noConfusion hdec
    | some ts =>
      rw [hdt] at hdec
      simp only [Option.map] at hdec
      cases hdec
      exact List.isPrefixOf_iff_prefix.mpr ⟨ts, rfl⟩
  · right
    have hws : ∀ b ∈ content, isWsB b = true := by
      intro b hb
      have h1 := List.all_eq_true.mp hblank b hb
      have h2 := hnlf b hb
      simp only [Bool.or_eq_true] at h1
      rcases h1 with h1 | h1
      · exact h1
      · rw [h1] at h2; exact Bool.noConfusion h2
    rw [utf8Decode_ascii (fun b hb => by
      have := hws b hb
      simp [isWsB] at this
      omega)] at hdec
    cases hdec
    rw [List.all_eq_true]
    intro ch hch
    obtain ⟨b, hb, rfl⟩ := List.mem_map.mp hch
    exact isWsB_char (hws b hb)


theorem getLast?_none : ∀ (l : List Nat), l.getLast? = none → l = []
  | [], _ => rfl
  | [x], h => by simp at h
  | x :: y :: l, h => by
    rw [List.getLast?_cons_cons] at h
    exact absurd (getLast?_none (y :: l) h) (by simp)

theorem linesD {indb : List Nat} (hind : indb.all isWsB = true) :
    ∀ (segs : List (List Nat)) (s0 : List Char),
    (∀ seg ∈ segs, seg ≠ [] ∧ (∀ b ∈ seg.dropLast, isNlB b = false) ∧
      (indb.isPrefixOf seg = true ∨
        seg.all (fun b => isWsB b || isNlB b) = true)) →
    (∀ seg ∈ segs.dropLast, ∃ nlb, seg.getLast? = some nlb ∧ isNlB nlb = true) →
    utf8Decode segs.join = some s0 →
    ∀ line ∈ splitAnyNl s0,
      (indb.map Char.ofNat).isPrefixOf line = true ∨ line.all isWsC = true
  | [], s0, hseg, hlast, hdec, line, hline => by
    have hdec2 : some ([] : List Char) = some s0 := hdec
    cases hdec2
    simp only [splitAnyNl] at hline
    rw [List.mem_singleton] at hline
    subst hline
    right
    rfl
  | [seg], s0, hseg, hlast, hdec, line, hline => by
    obtain ⟨hne, hdl, hacc⟩ := hseg seg (List.mem_cons_self seg [])
    have hj : ([seg] : List (List Nat)).join = seg := by simp
    rw [hj] at hdec
    cases hgl : seg.getLast? with
    | none => exact absurd (getLast?_none seg hgl) hne
    | some lb =>
      have hdecomp := getLast?_decomp seg lb hgl
      by_cases hlb : isNlB lb = true
      · rw [hdecomp] at hdec
        obtain ⟨s1, s2, hd1, hd2, rfl⟩ := utf8Decode_append_single lb
          (by simp [isNlB] at hlb; omega) seg.dropLast [] s0 hdec
        have hs2 : some ([] : List Char) = some s2 := hd2
        cases hs2
        have hc1nl : ∀ ch ∈ s1, isNlC ch = false :=
          utf8Decode_nlFree seg.dropLast s1 hd1 hdl
        rw [splitAnyNl_append s1 (Char.ofNat lb) [] hc1nl (isNlB_char hlb)] at hline
        rcases List.mem_cons.mp hline with rfl | h1
        · refine content_ok hind hd1 ?_ hdl
          rcases hacc with hpre | hblank
          · left
            rw [hdecomp] at hpre
            exact prefix_dropNl hind hlb hpre
          · right
            rw [List.all_eq_true] at hblank ⊢
            intro b hb
            refine hblank b ?_
            rw [hdecomp]
            exact List.mem_append_left _ hb
        · simp only [splitAnyNl] at h1
          rw [List.mem_singleton] at h1
          subst h1
          right
          rfl
      · have hnlf : ∀ b ∈ seg, isNlB b = false := by
          intro b hb
          rw [hdecomp] at hb
          rcases List.mem_append.mp hb with hb1 | hb1
          · exact hdl b hb1
          · rw [List.mem_singleton] at hb1
            subst hb1
            simpa using hlb
        have hc1nl := utf8Decode_nlFree seg s0 hdec hnlf
        rw [splitAnyNl_nlFree s0 hc1nl] at hline
        rw [List.mem_singleton] at hline
        subst hline
        exact content_ok hind hdec hacc hnlf
  | seg :: r1 :: r2, s0, hseg, hlast, hdec, line, hline => by
    obtain ⟨hne, hdl, hacc⟩ := hseg seg (List.mem_cons_self seg (r1 :: r2))
    obtain ⟨lb, hgl, hlb⟩ := hlast seg (by
      rw [List.dropLast_cons_of_ne_nil (by simp)]
      exact List.mem_cons_self seg _)
    have hdecomp := getLast?_decomp seg lb hgl
    have hj : ((seg :: r1 :: r2 : List (List Nat)).join) =
        seg.dropLast ++ lb :: (r1 :: r2 : List (List Nat)).join := by
      conv_lhs => rw [show (seg :: r1 :: r2 : List (List Nat)).join =
        seg ++ (r1 :: r2 : List (List Nat)).join from rfl, hdecomp]
      simp
    rw [hj] at hdec
    obtain ⟨s1, s2, hd1, hd2, rfl⟩ := utf8Decode_append_single lb
      (by simp [isNlB] at hlb; omega) seg.dropLast ((r1 :: r2 : List (List Nat)).join)
      s0 hdec
    have hc1nl := utf8Decode_nlFree seg.dropLast s1 hd1 hdl
    rw [splitAnyNl_append s1 (Char.ofNat lb) s2 hc1nl (isNlB_char hlb)] at hline
    rcases List.mem_cons.mp hline with rfl | h1
    · refine content_ok hind hd1 ?_ hdl
      rcases hacc with hpre | hblank
      · left
        rw [hdecomp] at hpre
        exact prefix_dropNl hind hlb hpre
      · right
        rw [List.all_eq_true] at hblank ⊢
        intro b hb
        refine hblank b ?_
        rw [hdecomp]
        exact List.mem_append_left _ hb
    · exact linesD hind (r1 :: r2) s2
        (fun sg hs => hseg sg (List.mem_cons_of_mem seg hs))
        (fun sg hs => hlast sg (by
          rw [List.dropLast_cons_of_ne_nil (by simp)]
          exact List.mem_cons_of_mem seg hs)) hd2 line h1

theorem splitAnyNl_ne_nil : ∀ (s : List Char), splitAnyNl s ≠ []
  | [] => by simp [splitAnyNl]
  | c :: cs => by
    simp only [splitAnyNl]
    by_cases hc : isNlC c = true
    · rw [hc, if_pos rfl]
      simp
    · rw [show isNlC c = false from by simpa using hc, if_neg Bool.false_ne_true]
      cases h : splitAnyNl cs with
      | nil => simp
      | cons l ls => simp

theorem trimEnd_decomp (p : Char → Bool) : ∀ (s : List Char),
    ∃ suf, s = trimEnd p s ++ suf ∧ ∀ ch ∈ suf, p ch = true
  | [] => ⟨[], rfl, by simp⟩
  | c :: cs => by
    obtain ⟨suf, hs, hp⟩ := trimEnd_decomp p cs
    simp only [trimEnd]
    cases ht : trimEnd p cs with
    | nil =>
      rw [ht, List.nil_append] at hs
      by_cases hc : p c = true
      · rw [if_pos hc]
        refine ⟨c :: cs, by simp, ?_⟩
        intro ch hch
        rcases List.mem_cons.mp hch with rfl | h1
        · exact hc
        · rw [hs] at h1
          exact hp ch h1
      · rw [if_neg hc]
        refine ⟨suf, ?_, hp⟩
        simp [hs]
    | cons d ds =>
      rw [ht] at hs
      refine ⟨suf, ?_, hp⟩
      rw [List.cons_append, ← hs]

theorem splitAnyNl_suffix : ∀ (s1 s2 : List Char), ∃ x X,
    splitAnyNl (s1 ++ s2) = (x :: X) ++ (splitAnyNl s2).tail
  | [], s2 => by
    cases h : splitAnyNl s2 with
    | nil => exact absurd h (splitAnyNl_ne_nil s2)
    | cons l ls => exact ⟨l, [], by simp [h]⟩
  | c :: s1, s2 => by
    obtain ⟨x, X, hX⟩ := splitAnyNl_suffix s1 s2
    by_cases hc : isNlC c = true
    · refine ⟨[], x :: X, ?_⟩
      rw [List.cons_append]
      simp only [splitAnyNl]
      rw [hc, if_pos rfl, hX]
      rfl
    · refine ⟨c :: x, X, ?_⟩
      rw [List.cons_append]
      simp only [splitAnyNl]
      rw [show isNlC c = false from by simpa using hc, if_neg Bool.false_ne_true, hX]
      rfl

theorem splitAnyNl_prefix : ∀ (u v : List Char),
    ∃ X, X ≠ [] ∧ splitAnyNl (u ++ v) = (splitAnyNl u).dropLast ++ X ∧
      ∀ la, (splitAnyNl u).getLast? = some la → la.isPrefixOf X.headI = true
  | [], v => by
    cases h : splitAnyNl v with
    | nil => exact absurd h (splitAnyNl_ne_nil v)
    | cons l ls =>
      refine ⟨l :: ls, by simp, by simp [h, splitAnyNl], ?_⟩
      intro la hla
      have hla2 : la = [] := by
        simp only [splitAnyNl] at hla
        simpa using hla
      subst hla2
      simp [List.isPrefixOf]
  | c :: u, v => by
    obtain ⟨X, hne, hX, hpre⟩ := splitAnyNl_prefix u v
    by_cases hc : isNlC c = true
    · refine ⟨X, hne, ?_, ?_⟩
      · rw [List.cons_append]
        simp only [splitAnyNl]
        rw [hc]
        rw [if_pos rfl]
        rw [if_pos rfl]
        rw [hX, List.dropLast_cons_of_ne_nil (splitAnyNl_ne_nil u)]
        rfl
      · intro la hla
        apply hpre
        simp only [splitAnyNl] at hla
        rw [hc, if_pos rfl] at hla
        rwa [getLast?_cons_of_ne [] (splitAnyNl_ne_nil u)] at hla
    · have hcf : isNlC c = false := by simpa using hc
      cases hu : splitAnyNl u with
      | nil => exact absurd hu (splitAnyNl_ne_nil u)
      | cons h0 t0 =>
        rw [hu] at hX hpre
        cases t0 with
        | nil =>
          simp only [List.dropLast_single, List.nil_append] at hX
          cases hXc : X with
          | nil => exact absurd hXc hne
          | cons xh xt =>
            refine ⟨(c :: xh) :: xt, by simp, ?_, ?_⟩
            · rw [List.cons_append]
              simp only [splitAnyNl]
              rw [hcf]
              rw [if_neg Bool.false_ne_true]
              rw [if_neg Bool.false_ne_true]
              rw [hX, hXc, hu]
              rfl
            · intro la hla
              simp only [splitAnyNl] at hla
              rw [hcf, if_neg Bool.false_ne_true, hu] at hla
              simp only [List.getLast?_singleton, Option.some.injEq] at hla
              subst hla
              have := hpre h0 rfl
              rw [hXc] at this
              simp only [List.headI]
              simp only [List.headI] at this
              simpa [List.isPrefixOf] using this
        | cons d t0' =>
          refine ⟨X, hne, ?_, ?_⟩
          · rw [List.cons_append]
            simp only [splitAnyNl]
            rw [hcf]
            rw [if_neg Bool.false_ne_true]
            rw [if_neg Bool.false_ne_true]
            rw [hX, hu]
            rfl
          · intro la hla
            apply hpre
            simp only [splitAnyNl] at hla
            rw [hcf, if_neg Bool.false_ne_true, hu] at hla
            rwa [getLast?_cons_of_ne (c :: h0) (by simp : (d :: t0') ≠ [])] at hla

theorem prefix_line_ok {indS line L : List Char} (hws : indS.all isWsC = true)
    (hL : indS.isPrefixOf L = true ∨ L.all isWsC = true)
    (hpl : line.isPrefixOf L = true) (hnb : line.all isWsC = false) :
    indS.isPrefixOf line = true := by
  rcases hL with hL | hL
  · by_cases hlen : indS.length ≤ line.length
    · have h1 := List.isPrefixOf_iff_prefix.mp hL
      have h2 := List.isPrefixOf_iff_prefix.mp hpl
      exact List.isPrefixOf_iff_prefix.mpr (List.prefix_of_prefix_length_le h1 h2 hlen)
    · have h1 := List.isPrefixOf_iff_prefix.mp hL
      have h2 := List.isPrefixOf_iff_prefix.mp hpl
      have h3 : line <+: indS := List.prefix_of_prefix_length_le h2 h1 (by omega)
      have hlw : line.all isWsC = true := by
        rw [List.all_eq_true] at hws ⊢
        intro ch hch
        exact hws ch (h3.subset hch)
      rw [hlw] at hnb
      exact Bool.noConfusion hnb
  · have hlw : line.all isWsC = true := by
      rw [List.all_eq_true] at hL ⊢
      intro ch hch
      exact hL ch ((List.isPrefixOf_iff_prefix.mp hpl).subset hch)
    rw [hlw] at hnb
    exact Bool.noConfusion hnb

theorem body_tail_lines (s indS : List Char) (hws : indS.all isWsC = true)
    (hlines : ∀ L ∈ splitAnyNl s,
      indS.isPrefixOf L = true ∨ L.all isWsC = true) :
    ∀ line ∈ (splitAnyNl (trimMatches (fun c => isNlC c || isWsC c) s)).tail,
      line.all isWsC = false → indS.isPrefixOf line = true := by
  intro line hline hnb
  have htails : ∀ L ∈ (splitAnyNl
      (s.dropWhile (fun c => isNlC c || isWsC c))).tail,
      indS.isPrefixOf L = true ∨ L.all isWsC = true := by
    intro L hL
    obtain ⟨x, X, hX⟩ := splitAnyNl_suffix
      (s.takeWhile (fun c => isNlC c || isWsC c))
      (s.dropWhile (fun c => isNlC c || isWsC c))
    rw [List.takeWhile_append_dropWhile] at hX
    exact hlines L (by rw [hX]; exact List.mem_append_right _ hL)
  obtain ⟨suf, hdecomp, hsuf⟩ := trimEnd_decomp (fun c => isNlC c || isWsC c)
    (s.dropWhile (fun c => isNlC c || isWsC c))
  obtain ⟨X, hXne, hX, hXpre⟩ := splitAnyNl_prefix
    (trimEnd (fun c => isNlC c || isWsC c)
      (s.dropWhile (fun c => isNlC c || isWsC c))) suf
  rw [← hdecomp] at hX
  have hbody : trimMatches (fun c => isNlC c || isWsC c) s =
      trimEnd (fun c => isNlC c || isWsC c)
        (s.dropWhile (fun c => isNlC c || isWsC c)) := rfl
  rw [hbody] at hline
  cases hLB : splitAnyNl (trimEnd (fun c => isNlC c || isWsC c)
      (s.dropWhile (fun c => isNlC c || isWsC c))) with
  | nil => exact absurd hLB (splitAnyNl_ne_nil _)
  | cons lb0 lbrest =>
    rw [hLB] at hline hX
    simp only [List.tail_cons] at hline
    rcases List.eq_nil_or_concat lbrest with rfl | ⟨ys, y, rfl⟩
    · simp at hline
    · rw [List.concat_eq_append] at hline hX hLB
      have hdl : (lb0 :: (ys ++ [y])).dropLast = lb0 :: ys := by
        rw [List.dropLast_cons_of_ne_nil (by simp), List.dropLast_concat]
      rw [hdl] at hX
      have htl : (splitAnyNl (s.dropWhile (fun c => isNlC c || isWsC c))).tail =
          ys ++ X := by
        rw [hX]
        rfl
      rcases List.mem_append.mp hline with hmem | hmem
      · exact prefix_line_ok hws (htails line (by rw [htl]; exact List.mem_append_left _ hmem))
          (List.isPrefixOf_iff_prefix.mpr (List.prefix_refl line)) hnb
      · rw [List.mem_singleton] at hmem
        subst hmem
        have hgl : (lb0 :: (ys ++ [line])).getLast? = some line := by
          rw [(by simp : lb0 :: (ys ++ [line]) = (lb0 :: ys) ++ [line])]
          exact List.getLast?_concat _
        have hpl := hXpre line (by rw [hLB]; exact hgl)
        cases hXc : X with
        | nil => exact absurd hXc hXne
        | cons xh xt =>
          rw [hXc] at hpl
          simp only [List.headI] at hpl
          have hxh : xh ∈ (splitAnyNl
              (List.dropWhile (fun c => isNlC c || isWsC c) s)).tail := by
            rw [htl, hXc]
            exact List.mem_append_right _ (List.mem_cons_self xh xt)
          exact prefix_line_ok hws (htails xh hxh) hpl hnb

theorem mem_of_mem_dropLast {α : Type} {x : α} : ∀ {l : List α},
    x ∈ l.dropLast → x ∈ l := by
  intro l h
  rcases List.eq_nil_or_concat l with rfl | ⟨ys, y, rfl⟩
  · simp at h
  · rw [List.concat_eq_append, List.dropLast_concat] at h
    rw [List.concat_eq_append]
    exact List.mem_append_left _ h

theorem mem_dropLast_append {α : Type} {x : α} {A B : List α}
    (h : x ∈ A.dropLast) : x ∈ (A ++ B).dropLast := by
  cases hB : B with
  | nil => simpa using h
  | cons b bs =>
    rw [List.dropLast_append_cons]
    exact List.mem_append_left _ (mem_of_mem_dropLast h)

/-- C7 (amended): every `MultilineValue` yielded by `consume_multiline`
for a whitespace indent has a whitespace-only decoded indent that is a
prefix of every non-blank line of `raw_body` except possibly the first:
here, of every non-blank line after the first, since leading trimming can
strip the first line's indent. -/
theorem claim_c7 : ∀ (t : Tokenizer) (ind : List Nat) (lno : Nat)
    (indS body : List Char) (t2 : Tokenizer),
    ind.all isWsB = true →
    consumeMultiline t ind = .yield (.ok (.multilineValue lno indS body)) t2 →
    indS.all isWsC = true ∧
    ∀ line ∈ (splitAnyNl body).tail, line.all isWsC = false →
      indS.isPrefixOf line = true := by
  intro t ind lno indS body t2 hws h
  simp only [consumeMultiline] at h
  cases hdect : utf8Decode
      (t.input.take (mlScan ind (splitInclusiveNl t.input) false).1) with
  | none =>
    rw [hdect] at h
    simp at h
  | some s =>
    rw [hdect] at h
    have hdeci : utf8Decode ind = some (ind.map Char.ofNat) :=
      utf8Decode_ascii (fun b hb => by
        have := List.all_eq_true.mp hws b hb
        simp [isWsB] at this
        omega)
    rw [hdeci] at h
    simp only [TStep.yield.injEq, Except.ok.injEq, Token.multilineValue.injEq] at h
    obtain ⟨⟨hl, hi, hb⟩, ht2⟩ := h
    subst hi
    subst hb
    have hwsC : (ind.map Char.ofNat).all isWsC = true := by
      rw [List.all_eq_true]
      intro ch hch
      obtain ⟨b, hb2, rfl⟩ := List.mem_map.mp hch
      exact isWsB_char (List.all_eq_true.mp hws b hb2)
    refine ⟨hwsC, ?_⟩
    obtain ⟨A, B, hAB, hlen, hmem⟩ := mlScan_split ind (splitInclusiveNl t.input) false
    have hinput : t.input = A.join ++ B.join := by
      conv_lhs => rw [← splitInclusiveNl_join t.input, hAB]
      simp
    have htake : t.input.take (mlScan ind (splitInclusiveNl t.input) false).1 =
        A.join := by
      rw [hlen, hinput, List.take_left]
    rw [htake] at hdect
    have hlinesS : ∀ L ∈ splitAnyNl s,
        (ind.map Char.ofNat).isPrefixOf L = true ∨ L.all isWsC = true := by
      refine linesD hws A s ?_ ?_ hdect
      · intro seg hseg
        have hseg2 : seg ∈ splitInclusiveNl t.input := by
          rw [hAB]
          exact List.mem_append_left _ hseg
        obtain ⟨h1, h2⟩ := splitInclusiveNl_seg t.input seg hseg2
        exact ⟨h1, h2, hmem seg hseg⟩
      · intro seg hseg
        refine splitInclusiveNl_last t.input seg ?_
        rw [hAB]
        exact mem_dropLast_append hseg
    exact body_tail_lines s (ind.map Char.ofNat) hwsC hlinesS

/-- C7 counterexample: for the input `a = \x22\x22\x22` newline `  hello`,
the tokenizer emits a `MultilineValue` with indent `"  "` whose raw body is
`hello` — its first non-blank line does not start with the indent, because
trimming stripped it. -/
theorem claim_c7_counterexample :
    (runTokenizer 5 (tokenize (ascii "a = \"\"\"\n  hello"))).1 =
      [Except.ok (Token.mapKey 1 ['a']), Except.ok (Token.multilineHint 1 []),
       Except.ok (Token.newline 1),
       Except.ok (Token.multilineValue 2 [' ', ' '] ['h', 'e', 'l', 'l', 'o'])] ∧
    ([' ', ' '] : List Char).isPrefixOf ['h', 'e', 'l', 'l', 'o'] = false ∧
    (['h', 'e', 'l', 'l', 'o'] : List Char).all isWsC = false ∧
    (splitAnyNl ['h', 'e', 'l', 'l', 'o']).head? =
      some ['h', 'e', 'l', 'l', 'o'] := by decide

theorem claim_c7_witness :
    (([32, 32] : List Nat).all isWsB = true ∧
      consumeMultiline (tokenize (ascii "  hi")) [32, 32] =
        .yield (.ok (.multilineValue 1 [' ', ' '] ['h', 'i']))
          ⟨[], [[]], none, true, false, false, 2⟩) ∧
    ([' ', ' '] : List Char).all isWsC = true :=
  ⟨⟨by decide, by decide⟩,
   (claim_c7 (tokenize (ascii "  hi")) [32, 32] 1 [' ', ' '] ['h', 'i']
      ⟨[], [[]], none, true, false, false, 2⟩ (by decide) (by decide)).1⟩

end Conl
